import Mathlib

/-!
Wallpaper slideshow viewer (`Wallpaper.cpp`)

A shallow embedding of the program logic of `Wallpaper.cpp`:

* the folder tree `WallpaperGroup` and `CollectImages`;
* `PopulateCurrentSet` (collect, `std::sort`, `std::unique`, random start index, image load);
* the navigation actions `Previous`, `Next` and the `WM_TIMER` handler;
* the two layout computations, `DrawUI` (cover-fit) and `CalcAspectFit` (contain-fit);
* `PopulateDropdownMenu` and the menu identifier map.

Conventions of the embedding.

* `std::wstring` is a list of code units, ordered lexicographically as `operator<` does.
* `size_t` and `UINT` arithmetic is arithmetic on `Nat` reduced modulo `2 ^ 64`
  respectively `2 ^ 32`.
* `double` and `REAL` arithmetic is IEEE 754 binary64 and binary32 arithmetic, each
  operation rounded to nearest; a division by zero gives an infinity or a NaN and the
  computation goes on; a cast to `int` truncates toward zero and is undefined (`none`)
  for a NaN, an infinity and a value outside the range of `int`.
* An element access `currentSet[currentIndex]` is an `Option`: `none` stands for an
  access outside the vector, which the C++ program leaves undefined.
* Calls into the operating system (`InvalidateRect`, `AppendMenu`, ...) have no effect
  on the modelled state and are left out.
-/

namespace Wallpaper

/-! ## Strings and machine integers -/

/-- The type `std::wstring`: a sequence of `wchar_t` code units.  The order on it is the
lexicographic one, which is what `operator<` on `std::wstring` computes. -/
abbrev wstring := List Nat

/-- The wide string literal `L"..."`. -/
def L (s : String) : wstring := s.toList.map Char.toNat

/-- Number of values of a `size_t`. -/
def SIZE_MOD : Nat := 2 ^ 64

/-- Number of values of a `UINT`. -/
def UINT_MOD : Nat := 2 ^ 32

/-- Largest number of elements a `std::vector` can hold (`max_size()` never exceeds it). -/
def PTRDIFF_MAX : Nat := 2 ^ 63 - 1

/-- Addition of two `size_t` values. -/
def sizeAdd (a b : Nat) : Nat := (a + b) % SIZE_MOD

/-- Subtraction of two `size_t` values (`b` at most `SIZE_MOD`). -/
def sizeSub (a b : Nat) : Nat := (a + SIZE_MOD - b) % SIZE_MOD

/-! ## Wallpaper groups -/

/-- The struct `WallpaperGroup`.  `subgroups` lists the values of the
`map<wstring, unique_ptr<WallpaperGroup>>` in iteration (key) order; the key of an entry
is the `name` of its value (`group->subgroups[sub->name] = move(sub)`). -/
inductive WallpaperGroup where
  | mk (name : wstring) (images : List wstring) (subgroups : List WallpaperGroup)

namespace WallpaperGroup

/-- Field `name`. -/
def name : WallpaperGroup → wstring
  | mk n _ _ => n

/-- Field `images`. -/
def images : WallpaperGroup → List wstring
  | mk _ i _ => i

/-- Field `subgroups`. -/
def subgroups : WallpaperGroup → List WallpaperGroup
  | mk _ _ s => s

mutual
/-- The method `CollectImages(outImages)`: appends the images of the group, then runs over
the subgroups; the result is the new value of `outImages`. -/
def CollectImages : WallpaperGroup → List wstring → List wstring
  | mk _ images subs, outImages => CollectImagesLoop subs (outImages ++ images)
/-- The loop `for (auto& [_, sub] : subgroups) sub->CollectImages(outImages)`. -/
def CollectImagesLoop : List WallpaperGroup → List wstring → List wstring
  | [], outImages => outImages
  | sub :: rest, outImages => CollectImagesLoop rest (CollectImages sub outImages)
end

end WallpaperGroup

open WallpaperGroup

/-- The group `d` is `g` itself or a descendant of `g`. -/
inductive InSubtree : WallpaperGroup → WallpaperGroup → Prop
  | self (g : WallpaperGroup) : InSubtree g g
  | child {d c g : WallpaperGroup} : c ∈ g.subgroups → InSubtree d c → InSubtree d g

/-- The path `p` occurs in the image list of `g` or of a descendant of `g`. -/
def Reachable (p : wstring) (g : WallpaperGroup) : Prop :=
  ∃ d, InSubtree d g ∧ p ∈ d.images

/-! ## `std::sort` and `std::unique` -/

/-- The call `std::sort(first, last)` with `operator<`.  For a total order the result is
the one ascending rearrangement of the input, whatever algorithm the library runs. -/
def sort {α : Type} [LinearOrder α] (l : List α) : List α :=
  l.insertionSort (· ≤ ·)

/-- The scan of `std::unique` once `prev` is the last element kept: an element equal to
`prev` is dropped, any other is kept and becomes the element to compare with. -/
def uniqueFrom {α : Type} [DecidableEq α] (prev : α) : List α → List α
  | [] => []
  | x :: xs => if prev = x then uniqueFrom prev xs else x :: uniqueFrom x xs

/-- The call `v.erase(std::unique(v.begin(), v.end()), v.end())`: of every run of equal
neighbours only the first stays. -/
def unique {α : Type} [DecidableEq α] : List α → List α
  | [] => []
  | x :: xs => x :: uniqueFrom x xs

/-! ## Playback state -/

/-- A `Bitmap` built by `make_unique<Bitmap>(currentSet[currentIndex].c_str())`: the file
name read from the vector, `none` when the index was outside the vector. -/
structure Bitmap where
  file : Option wstring
deriving DecidableEq

/-- The global variables of the playback controller. -/
structure State where
  visible : Bool
  paused : Bool
  fullscreen : Bool
  uiHidden : Bool
  currentSet : List wstring
  currentIndex : Nat
  wallpaperBmp : Option Bitmap
deriving DecidableEq

/-- The globals as initialised at program start. -/
def State.init : State :=
  { visible := true, paused := false, fullscreen := false, uiHidden := false,
    currentSet := [], currentIndex := 0, wallpaperBmp := none }

/-- The statement `wallpaperBmp = make_unique<Bitmap>(currentSet[currentIndex].c_str())`. -/
def loadCurrent (s : State) : State :=
  { s with wallpaperBmp := some ⟨s.currentSet[s.currentIndex]?⟩ }

/-- The function `PopulateCurrentSet(group)`; `r` is the value returned by `rng()`. -/
def PopulateCurrentSet (group : WallpaperGroup) (r : Nat) (s : State) : State :=
  let s1 := { s with currentSet := [] }
  let s2 := { s1 with currentSet := group.CollectImages s1.currentSet }
  let s3 := { s2 with currentSet := unique (sort s2.currentSet) }
  let s4 := if s3.currentSet ≠ [] then
      { s3 with currentIndex := r % s3.currentSet.length }
    else s3
  loadCurrent s4

/-- The action of the Previous button. -/
def Previous (s : State) : State :=
  if s.currentSet ≠ [] then
    loadCurrent { s with
      currentIndex := sizeSub (sizeAdd s.currentIndex s.currentSet.length) 1
        % s.currentSet.length }
  else s

/-- The action of the Next button. -/
def Next (s : State) : State :=
  if s.currentSet ≠ [] then
    loadCurrent { s with currentIndex := sizeAdd s.currentIndex 1 % s.currentSet.length }
  else s

/-- The `WM_TIMER` case of `WndProc`. -/
def WM_TIMER (s : State) : State :=
  if s.paused = false ∧ s.currentSet ≠ [] then
    loadCurrent { s with currentIndex := sizeAdd s.currentIndex 1 % s.currentSet.length }
  else s

/-- The operations that change the playable set or the position in it. -/
inductive Op where
  | select (group : WallpaperGroup) (r : Nat)
  | next
  | previous
  | tick

/-- One operation applied to the globals. -/
def step (s : State) : Op → State
  | .select group r => PopulateCurrentSet group r s
  | .next => Next s
  | .previous => Previous s
  | .tick => WM_TIMER s

/-- A sequence of operations applied from left to right. -/
def run (s : State) (ops : List Op) : State :=
  ops.foldl step s

/-- The position is a valid index unless the playable set is empty. -/
def IndexValid (s : State) : Prop :=
  s.currentSet = [] ∨ s.currentIndex < s.currentSet.length

/-! ## Floating-point arithmetic

`double` is IEEE 754 binary64 and `REAL` (`float`) is binary32; every operation rounds
its exact result to the nearest number of its format, ties to even.  A finite number is
kept as an integer significand and a binary exponent, so that the definitions evaluate
with integer arithmetic only. -/

/-- A binary floating-point format: `p` significand bits, exponents of normal numbers
between `emin` and `emax`. -/
structure Fmt where
  p : Nat
  emin : Int
  emax : Int

/-- The format of `double`. -/
def binary64 : Fmt := ⟨53, -1022, 1023⟩

/-- The format of `float`, which is what `REAL` stands for. -/
def binary32 : Fmt := ⟨24, -126, 127⟩

/-- A floating-point datum: the finite number `m * 2 ^ e`, an infinity or a NaN.  The sign
of a zero is not kept: in `DrawUI` and `CalcAspectFit` every divisor is a converted
integer or the quotient of two converted unsigned integers, so no divisor is a negative
zero, and a cast sends both zeros to 0. -/
inductive FP where
  | fin (m : Int) (e : Int)
  | inf (neg : Bool)
  | nan
deriving DecidableEq

/-- The integer nearest to `A / B`, the even one of two nearest. -/
def roundNat (A B : Nat) : Nat :=
  let q := A / B
  let r := A % B
  if 2 * r < B then q
  else if B < 2 * r then q + 1
  else if q % 2 = 0 then q else q + 1

/-- Position of the highest set bit of `n`, found by halving; `fuel` bounds the number of
halvings. -/
def log2Aux : Nat → Nat → Nat
  | 0, _ => 0
  | fuel + 1, n => if n < 2 then 0 else log2Aux fuel (n / 2) + 1

/-- Position of the highest set bit of `n`. -/
def ilog2 (n : Nat) : Nat := log2Aux n n

/-- The binary exponent of the positive rational `a / D`: the `e` with
`2 ^ e ≤ a / D < 2 ^ (e + 1)`. -/
def floorLog2 (a D : Nat) : Int :=
  if D * 2 ^ ilog2 a ≤ a * 2 ^ ilog2 D then (ilog2 a : Int) - ilog2 D
  else (ilog2 a : Int) - ilog2 D - 1

/-- The integer nearest to `a / D / 2 ^ q`, the even one of two nearest. -/
def scaleRound (a D : Nat) (q : Int) : Nat :=
  if 0 ≤ q then roundNat a (D * 2 ^ q.toNat) else roundNat (a * 2 ^ (-q).toNat) D

/-- The exponent of the last significand bit of a number with binary exponent `e`
(numbers below the normal range share the exponent of the smallest normal number). -/
def quantum (f : Fmt) (e : Int) : Int := max e f.emin - ((f.p : Int) - 1)

/-- Rounding of the rational `N / D` (`D` positive) to the format: to the nearest
number, ties to even, to an infinity when the result exceeds the largest finite number. -/
def rnd (f : Fmt) (N : Int) (D : Nat) : FP :=
  if N = 0 then .fin 0 0 else
    let a := N.natAbs
    let e := floorLog2 a D
    let q := max e f.emin - ((f.p : Int) - 1)
    let n := scaleRound a D q
    if f.emax < e ∨ (e = f.emax ∧ n = 2 ^ f.p) then .inf (decide (N < 0))
    else .fin (if N < 0 then -(n : Int) else n) q

/-- Rounding of `N / D * 2 ^ s` to the format. -/
def rndFrac (f : Fmt) (N : Int) (D : Nat) (s : Int) : FP :=
  if 0 ≤ s then rnd f (N * 2 ^ s.toNat) D else rnd f N (D * 2 ^ (-s).toNat)

/-- Conversion of an integer (`int`, `LONG` or `UINT`) to the format, as in `(double)n`
and `(REAL)n`. -/
def ofInt (f : Fmt) (z : Int) : FP := rndFrac f z 1 0

/-- Floating-point multiplication. -/
def mulF (f : Fmt) : FP → FP → FP
  | .nan, _ => .nan
  | _, .nan => .nan
  | .inf s, .inf t => .inf (s != t)
  | .inf s, .fin m _ => if m = 0 then .nan else .inf (s != decide (m < 0))
  | .fin m _, .inf s => if m = 0 then .nan else .inf (s != decide (m < 0))
  | .fin m1 e1, .fin m2 e2 => rndFrac f (m1 * m2) 1 (e1 + e2)

/-- Floating-point division.  A finite non-zero number divided by zero is an infinity,
zero divided by zero is a NaN; nothing stops the computation. -/
def divF (f : Fmt) : FP → FP → FP
  | .nan, _ => .nan
  | _, .nan => .nan
  | .inf _, .inf _ => .nan
  | .inf s, .fin m _ => .inf (s != decide (m < 0))
  | .fin _ _, .inf _ => .fin 0 0
  | .fin m1 e1, .fin m2 e2 =>
    if m2 = 0 then (if m1 = 0 then .nan else .inf (decide (m1 < 0)))
    else rndFrac f (m1 * m2.sign) m2.natAbs (e1 - e2)

/-- Floating-point subtraction. -/
def subF (f : Fmt) : FP → FP → FP
  | .nan, _ => .nan
  | _, .nan => .nan
  | .inf s, .inf t => if s = t then .nan else .inf s
  | .inf s, .fin _ _ => .inf s
  | .fin _ _, .inf t => .inf (!t)
  | .fin m1 e1, .fin m2 e2 =>
    rndFrac f (m1 * 2 ^ (e1 - min e1 e2).toNat - m2 * 2 ^ (e2 - min e1 e2).toNat) 1 (min e1 e2)

/-- The comparison `a < b`; false as soon as one side is a NaN. -/
def ltF : FP → FP → Bool
  | .nan, _ => false
  | _, .nan => false
  | .inf s, .inf t => s && !t
  | .inf s, .fin _ _ => s
  | .fin _ _, .inf t => !t
  | .fin m1 e1, .fin m2 e2 =>
    decide (m1 * 2 ^ (e1 - min e1 e2).toNat < m2 * 2 ^ (e2 - min e1 e2).toNat)

/-- The cast `static_cast<int>(x)` or `(INT)x` to a 32-bit `int`: truncation toward
zero; `none` when the C++ program leaves the result undefined, which is the case for a
NaN, an infinity and a value whose truncation is outside the range of `int`. -/
def castInt : FP → Option Int
  | .fin m e =>
    let t := if 0 ≤ e then m * 2 ^ e.toNat else Int.tdiv m (2 ^ (-e).toNat)
    if -2147483648 ≤ t ∧ t ≤ 2147483647 then some t else none
  | _ => none

/-- The result `z` of an `int` addition or subtraction: `none` when it is outside the
range of `int` (signed overflow, undefined in C++). -/
def intOp (z : Int) : Option Int :=
  if -2147483648 ≤ z ∧ z ≤ 2147483647 then some z else none

/-! ## Layout computations -/

/-- The Win32 struct `RECT`. -/
structure RECT where
  left : Int
  top : Int
  right : Int
  bottom : Int
deriving DecidableEq

/-- The GDI+ class `Rect`, as built by `Rect(x, y, width, height)`. -/
structure Rect where
  X : Int
  Y : Int
  Width : Int
  Height : Int
deriving DecidableEq

/-- The expression `Rect((INT)x, (INT)y, (INT)drawW, (INT)drawH)`. -/
def mkRect (x y width height : FP) : Option Rect := do
  let x0 ← castInt x
  let y0 ← castInt y
  let w0 ← castInt width
  let h0 ← castInt height
  pure ⟨x0, y0, w0, h0⟩

/-- The function `CalcAspectFit(bmp, rc)`; `bmpW` and `bmpH` are the values returned by
`bmp->GetWidth()` and `bmp->GetHeight()`.  The result is `none` when a cast is applied
to a value for which C++ leaves it undefined. -/
def CalcAspectFit (bmpW bmpH : Nat) (rc : RECT) : Option Rect :=
  let imgW := ofInt binary32 bmpW
  let imgH := ofInt binary32 bmpH
  let wndW := ofInt binary32 rc.right
  let wndH := ofInt binary32 rc.bottom
  let imgAspect := divF binary32 imgW imgH
  let wndAspect := divF binary32 wndW wndH
  if ltF wndAspect imgAspect then
    let drawW := wndW
    let drawH := divF binary32 wndW imgAspect
    let y := mulF binary32 (subF binary32 wndH drawH) (.fin 1 (-1))
    mkRect (ofInt binary32 0) y drawW drawH
  else
    let drawH := wndH
    let drawW := mulF binary32 wndH imgAspect
    let x := mulF binary32 (subF binary32 wndW drawW) (.fin 1 (-1))
    mkRect x (ofInt binary32 0) drawW drawH

/-- The rectangle that `DrawUI` passes to `g.DrawImage` for the wallpaper (a bitmap is
loaded); `rc` is the client rectangle returned by `GetClientRect`, `imgW` and `imgH` are
the values returned by `wallpaperBmp->GetWidth()` and `wallpaperBmp->GetHeight()`.  The
result is `none` when a cast or an `int` subtraction is undefined in C++.  The name `max`
is the macro of `windows.h` (`NOMINMAX` is not defined), `(a > b) ? a : b`; `std::max`
returns another operand only when one of the two is a NaN. -/
def DrawUI (rc : RECT) (imgW imgH : Nat) : Option Rect := do
  let targetW ← intOp (rc.right - rc.left)
  let targetH ← intOp (rc.bottom - rc.top)
  let scaleX := divF binary64 (ofInt binary64 targetW) (ofInt binary64 imgW)
  let scaleY := divF binary64 (ofInt binary64 targetH) (ofInt binary64 imgH)
  let scale := if ltF scaleY scaleX then scaleX else scaleY
  let drawW ← castInt (mulF binary64 (ofInt binary64 imgW) scale)
  let drawH ← castInt (mulF binary64 (ofInt binary64 imgH) scale)
  let dx ← intOp (targetW - drawW)
  let dy ← intOp (targetH - drawH)
  pure ⟨Int.tdiv dx 2, Int.tdiv dy 2, drawW, drawH⟩

/-- The value of `scale` in `DrawUI`. -/
def coverScale (targetW targetH : Int) (imgW imgH : Nat) : FP :=
  if ltF (divF binary64 (ofInt binary64 targetH) (ofInt binary64 imgH))
      (divF binary64 (ofInt binary64 targetW) (ofInt binary64 imgW)) then
    divF binary64 (ofInt binary64 targetW) (ofInt binary64 imgW)
  else divF binary64 (ofInt binary64 targetH) (ofInt binary64 imgH)

/-- Unit roundoff of a format. -/
def Fmt.u (f : Fmt) : ℚ := (2 : ℚ) ^ (-(f.p : Int))

/-- Half of the smallest positive number of a format. -/
def Fmt.eta (f : Fmt) : ℚ := (2 : ℚ) ^ (f.emin - f.p)

/-- Truncation of a rational toward zero. -/
def truncQ (x : ℚ) : Int := if 0 ≤ x then ⌊x⌋ else -⌊-x⌋

/-- The number `z` is a rounding of `x` with relative error at most `U`, up to an
absolute error of `2 ^ (-64)`, and has the sign of `x`. -/
def Near (U z x : ℚ) : Prop :=
  |z - x| ≤ |x| * U + 1 / 2 ^ 64 ∧ (0 ≤ x → 0 ≤ z) ∧ (x ≤ 0 → z ≤ 0)

/-- The rational value of a finite floating-point number. -/
def FP.IsVal (a : FP) (x : ℚ) : Prop :=
  ∃ m e : Int, a = .fin m e ∧ (m : ℚ) * (2 : ℚ) ^ e = x

/-! ## Dropdown menu -/

/-- A `WallpaperGroup*` into the tree owned by `rootGroup`: the positions of the children
to follow from the root.  Two distinct nodes of the tree have distinct pointers. -/
abbrev GroupPtr := List Nat

/-- The globals `menuIdToGroup` and `nextMenuId`. -/
structure MenuState where
  menuIdToGroup : Nat → Option GroupPtr
  nextMenuId : Nat

/-- The assignment `menuIdToGroup[id] = p`. -/
def mapSet (m : Nat → Option GroupPtr) (id : Nat) (p : GroupPtr) : Nat → Option GroupPtr :=
  fun k => if k = id then some p else m k

/-- One pass through the `else` branch of `PopulateDropdownMenu`: the next identifier is
given to the group `p`. -/
def assignNext (st : MenuState) (p : GroupPtr) : MenuState :=
  { menuIdToGroup := mapSet st.menuIdToGroup st.nextMenuId p,
    nextMenuId := (st.nextMenuId + 1) % UINT_MOD }

mutual
/-- The function `PopulateDropdownMenu(hMenu, group)`, where `ptr` is the pointer `group`. -/
def PopulateDropdownMenu : WallpaperGroup → GroupPtr → MenuState → MenuState
  | .mk _ _ subs, ptr, st => PopulateDropdownMenuLoop subs ptr 0 st
/-- The loop over `group->subgroups`, at the entry in position `i`; `ptr` is the pointer
`group`. -/
def PopulateDropdownMenuLoop : List WallpaperGroup → GroupPtr → Nat → MenuState → MenuState
  | [], _, _, st => st
  | sub :: rest, ptr, i, st =>
    PopulateDropdownMenuLoop rest ptr (i + 1)
      (if !sub.subgroups.isEmpty then
        PopulateDropdownMenu sub (ptr ++ [i]) st
      else
        assignNext st (ptr ++ [i]))
end

/-- The action of the dropdown button up to the point where the menu is shown:
`menuIdToGroup.clear(); nextMenuId = 1000; PopulateDropdownMenu(hMenu, rootGroup.get())`. -/
def rebuildMenu (rootGroup : WallpaperGroup) : MenuState :=
  PopulateDropdownMenu rootGroup [] { menuIdToGroup := fun _ => none, nextMenuId := 1000 }

/-- The group a pointer points to. -/
def nodeAt : WallpaperGroup → GroupPtr → Option WallpaperGroup
  | g, [] => some g
  | g, i :: rest =>
    match g.subgroups[i]? with
    | none => none
    | some c => nodeAt c rest

/-- The pointer `p` points to a proper descendant of `root` that has no child groups. -/
def IsChildlessDescendant (root : WallpaperGroup) (p : GroupPtr) : Prop :=
  p ≠ [] ∧ ∃ g, nodeAt root p = some g ∧ g.subgroups = []

mutual
/-- Pointers to the proper descendants of a group that have no child groups, the group
itself being at `ptr`. -/
def childless : WallpaperGroup → GroupPtr → List GroupPtr
  | .mk _ _ subs, ptr => childlessFrom subs ptr 0
/-- Pointers to the childless groups found in or below the children listed, the first of
which is in position `i` below the group at `ptr`. -/
def childlessFrom : List WallpaperGroup → GroupPtr → Nat → List GroupPtr
  | [], _, _ => []
  | sub :: rest, ptr, i =>
    (if sub.subgroups.isEmpty then [ptr ++ [i]] else childless sub (ptr ++ [i]))
      ++ childlessFrom rest ptr (i + 1)
end

/-! ## Example trees -/

/-- The folder tree of the scenario: `A/img1.png`, `A/img2.jpg`, `B/img3.bmp`. -/
def groupA : WallpaperGroup := .mk (L "A") [L "A/img1.png", L "A/img2.jpg"] []

/-- Folder `B` of the scenario. -/
def groupB : WallpaperGroup := .mk (L "B") [L "B/img3.bmp"] []

/-- Root folder of the scenario. -/
def scenarioRoot : WallpaperGroup := .mk [] [] [groupA, groupB]

/-- A root folder without images and without subfolders. -/
def emptyRoot : WallpaperGroup := .mk [] [] []

/-- A tree with folders on two levels: `A` (no subfolders), `B` with subfolders `B/X`
and `B/Y`, and `C` (no subfolders). -/
def nestedRoot : WallpaperGroup :=
  .mk [] [] [groupA,
    .mk (L "B") [] [.mk (L "X") [L "B/X/x.png"] [], .mk (L "Y") [] []],
    .mk (L "C") [L "C/c.jpg"] []]

/-- A state with a playable set of three files, showing the second. -/
def threeState : State :=
  { State.init with
    currentSet := [L "a.png", L "b.png", L "c.png"], currentIndex := 1,
    wallpaperBmp := some ⟨some (L "b.png")⟩ }

end Wallpaper

/-! # Theorems -/

namespace Wallpaper
open WallpaperGroup

/-! ## Collecting, sorting and removing duplicates -/

theorem reachable_mk (p : wstring) (n : wstring) (imgs : List wstring)
    (subs : List WallpaperGroup) :
    Reachable p (.mk n imgs subs) ↔ p ∈ imgs ∨ ∃ c ∈ subs, Reachable p c := by
  constructor
  · rintro ⟨d, hd, hp⟩
    cases hd with
    | self => exact Or.inl hp
    | child hc hdc => exact Or.inr ⟨_, hc, _, hdc, hp⟩
  · rintro (hp | ⟨c, hc, d, hdc, hp⟩)
    · exact ⟨_, InSubtree.self _, hp⟩
    · exact ⟨d, InSubtree.child hc hdc, hp⟩

mutual
theorem mem_CollectImages (p : wstring) :
    ∀ (g : WallpaperGroup) (out : List wstring),
      p ∈ g.CollectImages out ↔ p ∈ out ∨ Reachable p g
  | .mk n imgs subs, out => by
    rw [CollectImages, mem_CollectImagesLoop p subs (out ++ imgs), reachable_mk,
      List.mem_append, or_assoc]
theorem mem_CollectImagesLoop (p : wstring) :
    ∀ (subs : List WallpaperGroup) (out : List wstring),
      p ∈ CollectImagesLoop subs out ↔ p ∈ out ∨ ∃ c ∈ subs, Reachable p c
  | [], out => by simp [CollectImagesLoop]
  | c :: rest, out => by
    rw [CollectImagesLoop, mem_CollectImagesLoop p rest (CollectImages c out),
      mem_CollectImages p c out]
    simp only [List.mem_cons, exists_eq_or_imp, or_assoc]
end

theorem mem_sort {α : Type} [LinearOrder α] (l : List α) (y : α) : y ∈ sort l ↔ y ∈ l :=
  (List.perm_insertionSort (· ≤ ·) l).mem_iff

theorem sorted_sort {α : Type} [LinearOrder α] (l : List α) :
    (sort l).Sorted (· ≤ ·) :=
  List.sorted_insertionSort (· ≤ ·) l

theorem mem_of_mem_uniqueFrom {α : Type} [DecidableEq α] (y : α) :
    ∀ (l : List α) (prev : α), y ∈ uniqueFrom prev l → y ∈ l
  | [], _, h => by simp [uniqueFrom] at h
  | x :: xs, prev, h => by
    rw [uniqueFrom] at h
    split at h
    · exact List.mem_cons_of_mem _ (mem_of_mem_uniqueFrom y xs prev h)
    · rcases List.mem_cons.1 h with h | h
      · exact h ▸ List.mem_cons_self _ _
      · exact List.mem_cons_of_mem _ (mem_of_mem_uniqueFrom y xs x h)

theorem mem_uniqueFrom_of_mem {α : Type} [DecidableEq α] (y : α) :
    ∀ (l : List α) (prev : α), y ∈ l → y = prev ∨ y ∈ uniqueFrom prev l
  | [], _, h => by simp at h
  | x :: xs, prev, h => by
    rw [uniqueFrom]
    split
    · next hpx =>
      rcases List.mem_cons.1 h with h | h
      · exact Or.inl (h.trans hpx.symm)
      · exact mem_uniqueFrom_of_mem y xs prev h
    · rcases List.mem_cons.1 h with h | h
      · exact Or.inr (h ▸ List.mem_cons_self _ _)
      · rcases mem_uniqueFrom_of_mem y xs x h with h | h
        · exact Or.inr (h ▸ List.mem_cons_self _ _)
        · exact Or.inr (List.mem_cons_of_mem _ h)

theorem mem_unique {α : Type} [DecidableEq α] (l : List α) (y : α) :
    y ∈ unique l ↔ y ∈ l := by
  cases l with
  | nil => simp [unique]
  | cons x xs =>
    rw [unique]
    constructor
    · intro h
      rcases List.mem_cons.1 h with h | h
      · exact h ▸ List.mem_cons_self _ _
      · exact List.mem_cons_of_mem _ (mem_of_mem_uniqueFrom y xs x h)
    · intro h
      rcases List.mem_cons.1 h with h | h
      · exact h ▸ List.mem_cons_self _ _
      · rcases mem_uniqueFrom_of_mem y xs x h with h | h
        · exact h ▸ List.mem_cons_self _ _
        · exact List.mem_cons_of_mem _ h

theorem sorted_cons_uniqueFrom {α : Type} [LinearOrder α] [DecidableEq α] :
    ∀ (l : List α) (prev : α), (prev :: l).Sorted (· ≤ ·) →
      (prev :: uniqueFrom prev l).Sorted (· < ·)
  | [], prev, _ => by simp [uniqueFrom]
  | x :: xs, prev, h => by
    have hpx : prev ≤ x := List.rel_of_sorted_cons h x (List.mem_cons_self _ _)
    have htl : (x :: xs).Sorted (· ≤ ·) := h.of_cons
    rw [uniqueFrom]
    split
    · next heq =>
      subst heq
      exact sorted_cons_uniqueFrom xs prev htl
    · next hne =>
      have hlt : prev < x := lt_of_le_of_ne hpx hne
      have ih := sorted_cons_uniqueFrom xs x htl
      refine List.sorted_cons.2 ⟨?_, ih⟩
      intro y hy
      have hy2 : y ∈ x :: xs := by
        rcases List.mem_cons.1 hy with h1 | h1
        · exact h1 ▸ List.mem_cons_self _ _
        · exact List.mem_cons_of_mem _ (mem_of_mem_uniqueFrom y xs x h1)
      rcases List.mem_cons.1 hy2 with h1 | h1
      · exact h1 ▸ hlt
      · exact lt_of_lt_of_le hlt (List.rel_of_sorted_cons htl y h1)

theorem sorted_unique {α : Type} [LinearOrder α] [DecidableEq α] (l : List α)
    (h : l.Sorted (· ≤ ·)) : (unique l).Sorted (· < ·) := by
  cases l with
  | nil => simp [unique]
  | cons x xs => exact sorted_cons_uniqueFrom xs x h

theorem currentSet_PopulateCurrentSet (G : WallpaperGroup) (r : Nat) (s : State) :
    (PopulateCurrentSet G r s).currentSet = unique (sort (G.CollectImages [])) := by
  unfold PopulateCurrentSet loadCurrent
  dsimp only
  split <;> rfl

/-! ## The playable set -/

/-- C1: after `PopulateCurrentSet G` the playable set is strictly ascending, and a path
is in it exactly when it occurs in the image list of `G` or of a descendant of `G`
(so nothing from outside the subtree of `G` gets in).  In the scenario tree the root
gives the three files, `A` gives `img1` and `img2` only, and `B` gives `img3` only. -/
theorem C1_playable_set_is_sorted_union :
    (∀ (G : WallpaperGroup) (r : Nat) (s : State),
      (PopulateCurrentSet G r s).currentSet.Sorted (· < ·) ∧
      ∀ p, p ∈ (PopulateCurrentSet G r s).currentSet ↔ Reachable p G) ∧
    (∀ (r : Nat) (s : State),
      (PopulateCurrentSet scenarioRoot r s).currentSet
          = [L "A/img1.png", L "A/img2.jpg", L "B/img3.bmp"] ∧
      (PopulateCurrentSet groupA r s).currentSet = [L "A/img1.png", L "A/img2.jpg"] ∧
      (PopulateCurrentSet groupB r s).currentSet = [L "B/img3.bmp"]) := by
  refine ⟨fun G r s => ?_, fun r s => ?_⟩
  · rw [currentSet_PopulateCurrentSet]
    refine ⟨sorted_unique _ (sorted_sort _), fun p => ?_⟩
    rw [mem_unique, mem_sort, mem_CollectImages]
    simp
  · simp only [currentSet_PopulateCurrentSet]
    decide

/-! ## The position in the playable set -/

theorem Next_of_nonempty (s : State) (h : s.currentSet ≠ []) :
    Next s = { s with
      currentIndex := sizeAdd s.currentIndex 1 % s.currentSet.length
      wallpaperBmp :=
        some ⟨s.currentSet[sizeAdd s.currentIndex 1 % s.currentSet.length]?⟩ } := by
  unfold Next
  rw [if_pos h]
  rfl

theorem Previous_of_nonempty (s : State) (h : s.currentSet ≠ []) :
    Previous s = { s with
      currentIndex :=
        sizeSub (sizeAdd s.currentIndex s.currentSet.length) 1 % s.currentSet.length
      wallpaperBmp :=
        some ⟨s.currentSet[sizeSub (sizeAdd s.currentIndex s.currentSet.length) 1
          % s.currentSet.length]?⟩ } := by
  unfold Previous
  rw [if_pos h]
  rfl

theorem WM_TIMER_of_running (s : State) (h : s.paused = false ∧ s.currentSet ≠ []) :
    WM_TIMER s = { s with
      currentIndex := sizeAdd s.currentIndex 1 % s.currentSet.length
      wallpaperBmp :=
        some ⟨s.currentSet[sizeAdd s.currentIndex 1 % s.currentSet.length]?⟩ } := by
  unfold WM_TIMER
  rw [if_pos h]
  rfl

theorem indexValid_PopulateCurrentSet (G : WallpaperGroup) (r : Nat) (s : State) :
    IndexValid (PopulateCurrentSet G r s) := by
  unfold PopulateCurrentSet loadCurrent IndexValid
  dsimp only
  split
  · next hne =>
    right
    exact Nat.mod_lt _ (List.length_pos.2 hne)
  · next he =>
    left
    simpa using he

theorem indexValid_step (s : State) (h : IndexValid s) (op : Op) :
    IndexValid (step s op) := by
  cases op with
  | select G r => exact indexValid_PopulateCurrentSet G r s
  | next =>
    show IndexValid (Next s)
    by_cases hne : s.currentSet ≠ []
    · rw [Next_of_nonempty s hne]
      exact Or.inr (Nat.mod_lt _ (List.length_pos.2 hne))
    · unfold Next
      rw [if_neg hne]
      exact h
  | previous =>
    show IndexValid (Previous s)
    by_cases hne : s.currentSet ≠ []
    · rw [Previous_of_nonempty s hne]
      exact Or.inr (Nat.mod_lt _ (List.length_pos.2 hne))
    · unfold Previous
      rw [if_neg hne]
      exact h
  | tick =>
    show IndexValid (WM_TIMER s)
    by_cases hne : s.paused = false ∧ s.currentSet ≠ []
    · rw [WM_TIMER_of_running s hne]
      exact Or.inr (Nat.mod_lt _ (List.length_pos.2 hne.2))
    · unfold WM_TIMER
      rw [if_neg hne]
      exact h

theorem indexValid_run (ops : List Op) :
    ∀ s : State, IndexValid s → IndexValid (run s ops) := by
  induction ops with
  | nil => intro s h; exact h
  | cons op rest ih =>
    intro s h
    exact ih (step s op) (indexValid_step s h op)

/-- C2: in every state reached from the initial state by a sequence of the operations
select-group, Next, Previous and timer tick, the playable set is empty or `currentIndex`
is smaller than its size. -/
theorem C2_index_valid_in_reachable_states (ops : List Op) :
    (run State.init ops).currentSet = [] ∨
      (run State.init ops).currentIndex < (run State.init ops).currentSet.length :=
  indexValid_run ops State.init (Or.inl rfl)

/-- C3 (failing input): `PopulateCurrentSet` on a group without images, run at program
start, keeps the playable set empty and the index at 0, yet it reads `currentSet[0]`
outside the empty vector and replaces the (so far absent) bitmap by the one built from
that read; on the same state the Next, Previous and timer paths load nothing. -/
theorem C3_empty_group_still_loads :
    ∀ r : Nat,
      (PopulateCurrentSet emptyRoot r State.init).currentSet = [] ∧
      (PopulateCurrentSet emptyRoot r State.init).currentIndex = State.init.currentIndex ∧
      State.init.wallpaperBmp = none ∧
      (PopulateCurrentSet emptyRoot r State.init).wallpaperBmp = some ⟨none⟩ ∧
      (Next State.init).wallpaperBmp = none ∧
      (Previous State.init).wallpaperBmp = none ∧
      (WM_TIMER State.init).wallpaperBmp = none := by
  intro r
  refine ⟨rfl, rfl, rfl, rfl, rfl, rfl, rfl⟩

/-! ## Advance and retreat -/

theorem sizeAdd_eq (a b : Nat) (h : a + b < SIZE_MOD) : sizeAdd a b = a + b :=
  Nat.mod_eq_of_lt h

theorem sizeSub_one_eq (a : Nat) (h1 : 1 ≤ a) (h2 : a < SIZE_MOD) : sizeSub a 1 = a - 1 := by
  unfold sizeSub
  have h3 : a + SIZE_MOD - 1 = (a - 1) + SIZE_MOD := by omega
  rw [h3, Nat.add_mod_right]
  exact Nat.mod_eq_of_lt (by omega)

theorem advance_exact (i n : Nat) (h : i + 1 < SIZE_MOD) :
    sizeAdd i 1 % n = (i + 1) % n := by
  rw [sizeAdd_eq i 1 h]

theorem retreat_exact (i n : Nat) (hn : 0 < n) (h : i + n < SIZE_MOD) :
    sizeSub (sizeAdd i n) 1 % n = (i + n - 1) % n := by
  rw [sizeAdd_eq i n h, sizeSub_one_eq (i + n) (by omega) h]

theorem retreat_advance (i n : Nat) (hi : i < n) :
    ((i + 1) % n + n - 1) % n = i := by
  rcases Nat.lt_or_ge (i + 1) n with h | h
  · rw [Nat.mod_eq_of_lt h]
    have : i + 1 + n - 1 = i + n := by omega
    rw [this, Nat.add_mod_right, Nat.mod_eq_of_lt hi]
  · have hn : i + 1 = n := by omega
    rw [hn, Nat.mod_self]
    have : 0 + n - 1 = i := by omega
    rw [this, Nat.mod_eq_of_lt hi]

theorem advance_retreat (i n : Nat) (hi : i < n) :
    ((i + n - 1) % n + 1) % n = i := by
  rcases Nat.eq_zero_or_pos i with h | h
  · subst h
    have h1 : (0 + n - 1) % n = n - 1 := by
      rw [Nat.zero_add]
      exact Nat.mod_eq_of_lt (by omega)
    have h2 : n - 1 + 1 = n := by omega
    rw [h1, h2, Nat.mod_self]
  · have h1 : i + n - 1 = (i - 1) + n := by omega
    have h2 : (i - 1) % n = i - 1 := Nat.mod_eq_of_lt (by omega)
    have h3 : i - 1 + 1 = i := by omega
    rw [h1, Nat.add_mod_right, h2, h3, Nat.mod_eq_of_lt hi]

/-- C4: on a non-empty playable set of size `n` (a vector, so `n` is at most
`PTRDIFF_MAX`) and at an index `i < n`, Next moves to `(i + 1) mod n`, Previous moves to
`(i + n - 1) mod n` (the `size_t` computation does not wrap), Next followed by Previous
returns to `i`, and Previous followed by Next returns to `i`. -/
theorem C4_next_previous_inverse (s : State) (hne : s.currentSet ≠ [])
    (hsz : s.currentSet.length ≤ PTRDIFF_MAX)
    (hi : s.currentIndex < s.currentSet.length) :
    (Next s).currentIndex = (s.currentIndex + 1) % s.currentSet.length ∧
    (Previous s).currentIndex
      = (s.currentIndex + s.currentSet.length - 1) % s.currentSet.length ∧
    (Previous (Next s)).currentIndex = s.currentIndex ∧
    (Next (Previous s)).currentIndex = s.currentIndex := by
  have hn : 0 < s.currentSet.length := List.length_pos.2 hne
  have hmax : s.currentSet.length < 2 ^ 63 := by
    have : PTRDIFF_MAX = 2 ^ 63 - 1 := rfl
    omega
  have hmod : SIZE_MOD = 2 ^ 64 := rfl
  have hnext : (Next s).currentIndex = (s.currentIndex + 1) % s.currentSet.length := by
    rw [Next_of_nonempty s hne]
    exact advance_exact _ _ (by omega)
  have hprev : (Previous s).currentIndex
      = (s.currentIndex + s.currentSet.length - 1) % s.currentSet.length := by
    rw [Previous_of_nonempty s hne]
    exact retreat_exact _ _ hn (by omega)
  have hnextSet : (Next s).currentSet = s.currentSet := by
    rw [Next_of_nonempty s hne]
  have hprevSet : (Previous s).currentSet = s.currentSet := by
    rw [Previous_of_nonempty s hne]
  refine ⟨hnext, hprev, ?_, ?_⟩
  · have hne2 : (Next s).currentSet ≠ [] := by rw [hnextSet]; exact hne
    rw [Previous_of_nonempty (Next s) hne2]
    show sizeSub (sizeAdd (Next s).currentIndex (Next s).currentSet.length) 1
      % (Next s).currentSet.length = s.currentIndex
    rw [hnextSet, hnext]
    have hlt : (s.currentIndex + 1) % s.currentSet.length < s.currentSet.length :=
      Nat.mod_lt _ hn
    rw [retreat_exact _ _ hn (by omega)]
    exact retreat_advance _ _ hi
  · have hne2 : (Previous s).currentSet ≠ [] := by rw [hprevSet]; exact hne
    rw [Next_of_nonempty (Previous s) hne2]
    show sizeAdd (Previous s).currentIndex 1 % (Previous s).currentSet.length
      = s.currentIndex
    rw [hprevSet, hprev]
    have hlt : (s.currentIndex + s.currentSet.length - 1) % s.currentSet.length
        < s.currentSet.length := Nat.mod_lt _ hn
    rw [advance_exact _ _ (by omega)]
    exact advance_retreat _ _ hi

/-- C4 at a concrete state: three files, showing the second. -/
theorem C4_next_previous_inverse_witness :
    (Next threeState).currentIndex = 2 ∧ (Previous threeState).currentIndex = 0 ∧
    (Previous (Next threeState)).currentIndex = 1 ∧
    (Next (Previous threeState)).currentIndex = 1 := by
  have h := C4_next_previous_inverse threeState (by decide) (by decide) (by decide)
  exact h

/-! ## Timer tick -/

/-- C5: a timer tick on a state that is not paused and has a non-empty playable set
moves `currentIndex` to `(currentIndex + 1) mod size` (the `size_t` sum, which is the
exact sum whenever `currentIndex` is below `SIZE_MAX`), keeps the set and loads the image
at the new index; on a paused state or an empty set it changes nothing; the flags
`paused`, `visible`, `uiHidden` and `fullscreen` never change. -/
theorem C5_timer_tick (s : State) :
    (s.paused = false ∧ s.currentSet ≠ [] →
      (WM_TIMER s).currentIndex = sizeAdd s.currentIndex 1 % s.currentSet.length ∧
      (s.currentIndex + 1 < SIZE_MOD →
        (WM_TIMER s).currentIndex = (s.currentIndex + 1) % s.currentSet.length) ∧
      (WM_TIMER s).currentSet = s.currentSet ∧
      (WM_TIMER s).wallpaperBmp = some ⟨s.currentSet[(WM_TIMER s).currentIndex]?⟩) ∧
    (¬ (s.paused = false ∧ s.currentSet ≠ []) → WM_TIMER s = s) ∧
    (WM_TIMER s).paused = s.paused ∧ (WM_TIMER s).visible = s.visible ∧
    (WM_TIMER s).uiHidden = s.uiHidden ∧ (WM_TIMER s).fullscreen = s.fullscreen := by
  by_cases h : s.paused = false ∧ s.currentSet ≠ []
  · rw [WM_TIMER_of_running s h]
    refine ⟨fun _ => ⟨rfl, fun hlt => advance_exact _ _ hlt, rfl, rfl⟩,
      fun hn => absurd h hn, rfl, rfl, rfl, rfl⟩
  · have he : WM_TIMER s = s := by
      unfold WM_TIMER
      rw [if_neg h]
    rw [he]
    exact ⟨fun hp => absurd hp h, fun _ => rfl, rfl, rfl, rfl, rfl⟩

/-- C5 at a concrete state: three files, showing the second, not paused. -/
theorem C5_timer_tick_witness :
    (WM_TIMER threeState).currentIndex = 2 ∧
    (WM_TIMER threeState).currentSet = threeState.currentSet ∧
    (WM_TIMER threeState).wallpaperBmp = some ⟨some (L "c.png")⟩ := by
  have h := (C5_timer_tick threeState).1 (by decide)
  have h2 := h.2.1 (by decide)
  refine ⟨h2, h.2.2.1, ?_⟩
  rw [h.2.2.2, h2]
  rfl

/-! ## Floating-point arithmetic and layout -/

theorem log2Aux_spec : ∀ (fuel n : Nat), n ≤ fuel → 1 ≤ n →
    2 ^ log2Aux fuel n ≤ n ∧ n < 2 ^ (log2Aux fuel n + 1)
  | 0, n, h1, h2 => by omega
  | fuel + 1, n, h1, h2 => by
    rw [log2Aux]
    split
    · next h => exact ⟨by simp; omega, by simp; omega⟩
    · next h =>
      have ih := log2Aux_spec fuel (n / 2) (by omega) (by omega)
      have e1 : 2 ^ (log2Aux fuel (n / 2) + 1) = 2 * 2 ^ log2Aux fuel (n / 2) := by
        rw [pow_succ]; ring
      have e2 : 2 ^ (log2Aux fuel (n / 2) + 1 + 1)
          = 2 * 2 ^ (log2Aux fuel (n / 2) + 1) := by
        rw [pow_succ]; ring
      rw [e2]
      rw [e1] at ih ⊢
      omega

theorem ilog2_spec (n : Nat) (h : 1 ≤ n) : 2 ^ ilog2 n ≤ n ∧ n < 2 ^ (ilog2 n + 1) :=
  log2Aux_spec n n (le_refl n) h

theorem floorLog2_spec (a D : Nat) (ha : 1 ≤ a) (hD : 1 ≤ D) :
    (2 : ℚ) ^ floorLog2 a D ≤ (a : ℚ) / D ∧ (a : ℚ) / D < (2 : ℚ) ^ (floorLog2 a D + 1) := by
  obtain ⟨a1, a2⟩ := ilog2_spec a ha
  obtain ⟨d1, d2⟩ := ilog2_spec D hD
  have hDq : (0 : ℚ) < D := by exact_mod_cast hD
  have a1q : (2 : ℚ) ^ ilog2 a ≤ a := by exact_mod_cast a1
  have a2q : (a : ℚ) < 2 ^ (ilog2 a + 1) := by exact_mod_cast a2
  have d1q : (2 : ℚ) ^ ilog2 D ≤ D := by exact_mod_cast d1
  have d2q : (D : ℚ) < 2 ^ (ilog2 D + 1) := by exact_mod_cast d2
  have hpa : (0 : ℚ) < 2 ^ ilog2 a := by positivity
  have hpd : (0 : ℚ) < 2 ^ ilog2 D := by positivity
  have z1 : (2 : ℚ) ^ ((ilog2 a : Int) - ilog2 D) = 2 ^ ilog2 a / 2 ^ ilog2 D := by
    rw [zpow_sub₀ (by norm_num), zpow_natCast, zpow_natCast]
  unfold floorLog2
  split
  · next h =>
    have hq : (D : ℚ) * 2 ^ ilog2 a ≤ a * 2 ^ ilog2 D := by exact_mod_cast h
    rw [zpow_add_one₀ (by norm_num), z1]
    constructor
    · rw [div_le_div_iff₀ hpd hDq]
      linarith
    · rw [div_mul_eq_mul_div, div_lt_div_iff₀ hDq hpd]
      have : (a : ℚ) < 2 ^ ilog2 a * 2 := by rw [pow_succ] at a2q; exact a2q
      nlinarith
  · next h =>
    have hq : (a : ℚ) * 2 ^ ilog2 D < D * 2 ^ ilog2 a := by
      have := not_le.1 h
      exact_mod_cast this
    have e3 : (ilog2 a : Int) - ilog2 D - 1 + 1 = (ilog2 a : Int) - ilog2 D := by ring
    rw [e3, z1]
    have z2 : (2 : ℚ) ^ ((ilog2 a : Int) - ilog2 D - 1)
        = 2 ^ ilog2 a / 2 ^ ilog2 D / 2 := by
      rw [zpow_sub_one₀ (by norm_num), z1]
      rfl
    rw [z2]
    constructor
    · rw [div_div, div_le_div_iff₀ (by positivity) hDq]
      have : (D : ℚ) < 2 ^ ilog2 D * 2 := by rw [pow_succ] at d2q; exact d2q
      nlinarith
    · rw [div_lt_div_iff₀ hDq hpd]
      linarith

theorem roundNat_bounds (A B : Nat) (hB : 0 < B) :
    2 * A ≤ 2 * (B * roundNat A B) + B ∧ 2 * (B * roundNat A B) ≤ 2 * A + B := by
  have h1 := Nat.div_add_mod A B
  have h2 := Nat.mod_lt A hB
  have e1 : B * (A / B + 1) = B * (A / B) + B := by ring
  unfold roundNat
  dsimp only
  split
  · omega
  · split
    · rw [e1]; omega
    · split
      · omega
      · rw [e1]; omega

theorem roundNat_spec (A B : Nat) (hB : 0 < B) :
    |(roundNat A B : ℚ) - (A : ℚ) / B| ≤ 1 / 2 := by
  obtain ⟨h1, h2⟩ := roundNat_bounds A B hB
  have hBq : (0 : ℚ) < B := by exact_mod_cast hB
  have q1 : (2 : ℚ) * A ≤ 2 * (B * roundNat A B) + B := by exact_mod_cast h1
  have q2 : (2 : ℚ) * (B * roundNat A B) ≤ 2 * A + B := by exact_mod_cast h2
  have e : (roundNat A B : ℚ) - (A : ℚ) / B = (B * roundNat A B - A) / B := by
    field_simp
    ring
  rw [e, abs_le]
  constructor
  · rw [le_div_iff₀ hBq]; linarith
  · rw [div_le_iff₀ hBq]; linarith

theorem roundNat_exact (K B : Nat) (hB : 0 < B) : roundNat (K * B) B = K := by
  unfold roundNat
  dsimp only
  rw [Nat.mul_mod_left, Nat.mul_div_cancel _ hB]
  rw [if_pos (by omega)]

theorem scaleRound_ratio (a D : Nat) (q : Int) (hD : 0 < D) :
    ∃ A B : Nat, 0 < B ∧ scaleRound a D q = roundNat A B ∧
      (A : ℚ) / B = (a : ℚ) / D / (2 : ℚ) ^ q := by
  have hDq : (D : ℚ) ≠ 0 := by exact_mod_cast (ne_of_gt hD)
  unfold scaleRound
  split
  · next h =>
    refine ⟨a, D * 2 ^ q.toNat, by positivity, rfl, ?_⟩
    have e1 : (2 : ℚ) ^ q = 2 ^ q.toNat := by
      rw [← zpow_natCast, Int.toNat_of_nonneg h]
    rw [e1]
    push_cast
    rw [div_div]
  · next h =>
    refine ⟨a * 2 ^ (-q).toNat, D, hD, rfl, ?_⟩
    have e1 : (2 : ℚ) ^ q = ((2 : ℚ) ^ (-q).toNat)⁻¹ := by
      rw [← zpow_natCast, Int.toNat_of_nonneg (by omega), zpow_neg, inv_inv]
    rw [e1]
    push_cast
    field_simp

theorem scaleRound_spec (a D : Nat) (q : Int) (hD : 0 < D) :
    |(scaleRound a D q : ℚ) - (a : ℚ) / D / (2 : ℚ) ^ q| ≤ 1 / 2 := by
  obtain ⟨A, B, hB, h1, h2⟩ := scaleRound_ratio a D q hD
  rw [h1, ← h2]
  exact roundNat_spec A B hB

theorem scaleRound_exact (a D : Nat) (q : Int) (hD : 0 < D) (K : Nat)
    (h : (a : ℚ) / D / (2 : ℚ) ^ q = K) : scaleRound a D q = K := by
  obtain ⟨A, B, hB, h1, h2⟩ := scaleRound_ratio a D q hD
  have hBq : (B : ℚ) ≠ 0 := by exact_mod_cast (ne_of_gt hB)
  rw [h, div_eq_iff hBq] at h2
  have h3 : A = K * B := by exact_mod_cast h2
  rw [h1, h3]
  exact roundNat_exact K B hB

theorem rnd_fin (f : Fmt) (N : Int) (D : Nat) (hN : N ≠ 0)
    (he : floorLog2 N.natAbs D < f.emax) :
    rnd f N D = .fin
      (if N < 0 then -(scaleRound N.natAbs D (quantum f (floorLog2 N.natAbs D)) : Int)
        else scaleRound N.natAbs D (quantum f (floorLog2 N.natAbs D)))
      (quantum f (floorLog2 N.natAbs D)) := by
  unfold rnd quantum
  rw [if_neg hN]
  dsimp only
  rw [if_neg]
  rintro (h | ⟨h, _⟩) <;> omega

theorem natAbs_div_eq (N : Int) (D : Nat) (hD : 0 < D) :
    ((N.natAbs : Nat) : ℚ) / D = |(N : ℚ) / D| := by
  have hDq : (0 : ℚ) < D := by exact_mod_cast hD
  rw [abs_div, abs_of_pos hDq, Nat.cast_natAbs, Int.cast_abs]

theorem floorLog2_lt_emax (f : Fmt) (N : Int) (D : Nat) (hN : N ≠ 0) (hD : 0 < D)
    (hx : |(N : ℚ) / D| < (2 : ℚ) ^ f.emax) : floorLog2 N.natAbs D < f.emax := by
  have h1 := (floorLog2_spec N.natAbs D (Int.natAbs_pos.2 hN) hD).1
  rw [natAbs_div_eq N D hD] at h1
  exact (zpow_lt_zpow_iff_right₀ (by norm_num : (1 : ℚ) < 2)).1 (lt_of_le_of_lt h1 hx)

theorem signed_value (N : Int) (D : Nat) (hD : 0 < D) (n : Nat) (q : Int) :
    abs ((((if N < 0 then -(n : Int) else n : Int)) : ℚ) * (2 : ℚ) ^ q - (N : ℚ) / D)
      = abs ((n : ℚ) * (2 : ℚ) ^ q - abs ((N : ℚ) / D)) := by
  have hDq : (0 : ℚ) < D := by exact_mod_cast hD
  split
  · next h =>
    have hNq : (N : ℚ) < 0 := by exact_mod_cast h
    have : (N : ℚ) / D < 0 := div_neg_of_neg_of_pos hNq hDq
    rw [abs_of_neg this]
    push_cast
    rw [← abs_neg]
    congr 1
    ring
  · next h =>
    have hNq : (0 : ℚ) ≤ N := by exact_mod_cast (not_lt.1 h)
    have : (0 : ℚ) ≤ (N : ℚ) / D := div_nonneg hNq (le_of_lt hDq)
    rw [abs_of_nonneg this]
    push_cast
    rfl

theorem rnd_approx (f : Fmt) (N : Int) (D : Nat) (hD : 0 < D)
    (hx : |(N : ℚ) / D| < (2 : ℚ) ^ f.emax) :
    ∃ m q : Int, rnd f N D = .fin m q ∧
      |(m : ℚ) * (2 : ℚ) ^ q - (N : ℚ) / D|
        ≤ |(N : ℚ) / D| * (2 : ℚ) ^ (-(f.p : Int)) + (2 : ℚ) ^ (f.emin - f.p) ∧
      (0 ≤ N → 0 ≤ m) ∧ (N ≤ 0 → m ≤ 0) := by
  by_cases hN : N = 0
  · subst hN
    refine ⟨0, 0, by simp [rnd], ?_, fun _ => le_refl _, fun _ => le_refl _⟩
    simp
    positivity
  · have he := floorLog2_lt_emax f N D hN hD hx
    have hspec := (floorLog2_spec N.natAbs D (Int.natAbs_pos.2 hN) hD).1
    rw [natAbs_div_eq N D hD] at hspec
    refine ⟨_, _, rnd_fin f N D hN he, ?_, ?_, ?_⟩
    · rw [signed_value N D hD]
      have hs := scaleRound_spec N.natAbs D (quantum f (floorLog2 N.natAbs D)) hD
      rw [natAbs_div_eq N D hD] at hs
      set x := |(N : ℚ) / D| with hxdef
      set e := floorLog2 N.natAbs D with hedef
      set n := scaleRound N.natAbs D (quantum f e) with hndef
      have hq0 : (0 : ℚ) < (2 : ℚ) ^ quantum f e := by positivity
      have h1 : |(n : ℚ) * (2 : ℚ) ^ quantum f e - x| ≤ (2 : ℚ) ^ quantum f e / 2 := by
        have e1 : (n : ℚ) * (2 : ℚ) ^ quantum f e - x
            = ((n : ℚ) - x / (2 : ℚ) ^ quantum f e) * (2 : ℚ) ^ quantum f e := by
          field_simp
        rw [e1, abs_mul, abs_of_pos hq0]
        have := mul_le_mul_of_nonneg_right hs (le_of_lt hq0)
        linarith
      have h2 : (2 : ℚ) ^ quantum f e / 2
          ≤ x * (2 : ℚ) ^ (-(f.p : Int)) + (2 : ℚ) ^ (f.emin - f.p) := by
        have hx0 : (0 : ℚ) ≤ x := abs_nonneg _
        have hp0 : (0 : ℚ) < (2 : ℚ) ^ (-(f.p : Int)) := by positivity
        have hp1 : (0 : ℚ) < (2 : ℚ) ^ (f.emin - f.p) := by positivity
        have half : ∀ z : Int, (2 : ℚ) ^ (z - ((f.p : Int) - 1)) / 2 = (2 : ℚ) ^ (z - f.p) := by
          intro z
          have : z - ((f.p : Int) - 1) = (z - f.p) + 1 := by ring
          rw [this, zpow_add_one₀ (by norm_num)]
          field_simp
        unfold quantum
        rcases le_total e f.emin with hle | hle
        · rw [max_eq_right hle, half]
          have := mul_nonneg hx0 (le_of_lt hp0)
          linarith
        · rw [max_eq_left hle, half]
          have e2 : (2 : ℚ) ^ (e - (f.p : Int)) = (2 : ℚ) ^ e * (2 : ℚ) ^ (-(f.p : Int)) := by
            rw [← zpow_add₀ (by norm_num)]
            rfl
          rw [e2]
          have := mul_le_mul_of_nonneg_right hspec (le_of_lt hp0)
          linarith
      exact le_trans h1 h2
    · intro h0
      have : ¬ N < 0 := not_lt.2 h0
      rw [if_neg this]
      exact Int.ofNat_nonneg _
    · intro h0
      have : N < 0 := lt_of_le_of_ne h0 hN
      rw [if_pos this]
      have := Int.ofNat_nonneg (scaleRound N.natAbs D (quantum f (floorLog2 N.natAbs D)))
      omega

theorem rnd_exact (f : Fmt) (N : Int) (D : Nat) (hD : 0 < D)
    (hx : |(N : ℚ) / D| < (2 : ℚ) ^ f.emax) (M j : Int)
    (hM : M.natAbs < 2 ^ f.p) (hj : f.emin - f.p + 1 ≤ j)
    (h : (N : ℚ) / D = (M : ℚ) * (2 : ℚ) ^ j) :
    ∃ m q : Int, rnd f N D = .fin m q ∧ (m : ℚ) * (2 : ℚ) ^ q = (N : ℚ) / D := by
  have hDq : (0 : ℚ) < D := by exact_mod_cast hD
  by_cases hN : N = 0
  · subst hN
    exact ⟨0, 0, by simp [rnd], by simp⟩
  · have he := floorLog2_lt_emax f N D hN hD hx
    have hspec := (floorLog2_spec N.natAbs D (Int.natAbs_pos.2 hN) hD).1
    rw [natAbs_div_eq N D hD] at hspec
    refine ⟨_, _, rnd_fin f N D hN he, ?_⟩
    set e := floorLog2 N.natAbs D with hedef
    have habs : abs ((N : ℚ) / D) = (M.natAbs : ℚ) * (2 : ℚ) ^ j := by
      rw [h, abs_mul, abs_of_pos (by positivity : (0 : ℚ) < (2 : ℚ) ^ j), Nat.cast_natAbs,
        Int.cast_abs]
    have hMq : (M.natAbs : ℚ) < (2 : ℚ) ^ (f.p : Int) := by
      rw [zpow_natCast]
      exact_mod_cast hM
    have hqj : quantum f e ≤ j := by
      unfold quantum
      rcases le_total e f.emin with hle | hle
      · rw [max_eq_right hle]
        omega
      · rw [max_eq_left hle]
        have h1 : (2 : ℚ) ^ e < (2 : ℚ) ^ ((f.p : Int) + j) := by
          rw [zpow_add₀ (by norm_num)]
          calc (2 : ℚ) ^ e ≤ abs ((N : ℚ) / D) := hspec
            _ = (M.natAbs : ℚ) * (2 : ℚ) ^ j := habs
            _ < (2 : ℚ) ^ (f.p : Int) * (2 : ℚ) ^ j :=
              mul_lt_mul_of_pos_right hMq (by positivity)
        have := (zpow_lt_zpow_iff_right₀ (by norm_num : (1 : ℚ) < 2)).1 h1
        omega
    have hK : ((N.natAbs : Nat) : ℚ) / D / (2 : ℚ) ^ quantum f e
        = ((M.natAbs * 2 ^ (j - quantum f e).toNat : Nat) : ℚ) := by
      rw [natAbs_div_eq N D hD, habs]
      push_cast
      have e1 : (2 : ℚ) ^ (j - quantum f e).toNat = (2 : ℚ) ^ (j - quantum f e) := by
        rw [← zpow_natCast, Int.toNat_of_nonneg (by omega)]
      rw [e1, zpow_sub₀ (by norm_num)]
      field_simp
    have hn := scaleRound_exact N.natAbs D (quantum f e) hD _ hK
    rw [hn]
    have hq0 : (2 : ℚ) ^ quantum f e ≠ 0 := by positivity
    have hval : ((M.natAbs * 2 ^ (j - quantum f e).toNat : Nat) : ℚ) * (2 : ℚ) ^ quantum f e
        = abs ((N : ℚ) / D) := by
      rw [← hK, div_mul_cancel₀ _ hq0, natAbs_div_eq N D hD]
    generalize M.natAbs * 2 ^ (j - quantum f e).toNat = K at hval ⊢
    split
    · next hneg =>
      have hNq : (N : ℚ) < 0 := by exact_mod_cast hneg
      have : (N : ℚ) / D < 0 := div_neg_of_neg_of_pos hNq hDq
      rw [abs_of_neg this] at hval
      rw [Int.cast_neg, Int.cast_natCast, neg_mul, hval, neg_neg]
    · next hneg =>
      have hNq : (0 : ℚ) ≤ N := by exact_mod_cast (not_lt.1 hneg)
      have : (0 : ℚ) ≤ (N : ℚ) / D := div_nonneg hNq (le_of_lt hDq)
      rw [abs_of_nonneg this] at hval
      rw [Int.cast_natCast, hval]

theorem rndFrac_ratio (f : Fmt) (N : Int) (D : Nat) (s : Int) (hD : 0 < D) :
    ∃ (N2 : Int) (D2 : Nat), 0 < D2 ∧ rndFrac f N D s = rnd f N2 D2 ∧
      (N2 : ℚ) / D2 = (N : ℚ) / D * (2 : ℚ) ^ s := by
  unfold rndFrac
  split
  · next h =>
    refine ⟨N * 2 ^ s.toNat, D, hD, rfl, ?_⟩
    have e1 : (2 : ℚ) ^ s = 2 ^ s.toNat := by
      rw [← zpow_natCast, Int.toNat_of_nonneg h]
    rw [e1]
    push_cast
    ring
  · next h =>
    refine ⟨N, D * 2 ^ (-s).toNat, by positivity, rfl, ?_⟩
    have e1 : (2 : ℚ) ^ s = ((2 : ℚ) ^ (-s).toNat)⁻¹ := by
      rw [← zpow_natCast, Int.toNat_of_nonneg (by omega), zpow_neg, inv_inv]
    rw [e1]
    push_cast
    field_simp

theorem rndFrac_approx (f : Fmt) (N : Int) (D : Nat) (s : Int) (hD : 0 < D) (x : ℚ)
    (hx : x = (N : ℚ) / D * (2 : ℚ) ^ s) (hlt : |x| < (2 : ℚ) ^ f.emax) :
    ∃ y, (rndFrac f N D s).IsVal y ∧ |y - x| ≤ |x| * f.u + f.eta ∧
      (0 ≤ x → 0 ≤ y) ∧ (x ≤ 0 → y ≤ 0) := by
  obtain ⟨N2, D2, hD2, h1, h2⟩ := rndFrac_ratio f N D s hD
  rw [← h2] at hx
  subst hx
  obtain ⟨m, q, h3, h4, h5, h6⟩ := rnd_approx f N2 D2 hD2 hlt
  have hD2q : (0 : ℚ) < D2 := by exact_mod_cast hD2
  have hq0 : (0 : ℚ) < (2 : ℚ) ^ q := by positivity
  refine ⟨(m : ℚ) * (2 : ℚ) ^ q, ⟨m, q, h1.trans h3, rfl⟩, h4, ?_, ?_⟩
  · intro h0
    have hN : (0 : ℚ) ≤ N2 := by
      by_contra hc
      exact absurd h0 (not_le.2 (div_neg_of_neg_of_pos (not_le.1 hc) hD2q))
    have : (0 : ℚ) ≤ m := by exact_mod_cast h5 (by exact_mod_cast hN)
    exact mul_nonneg this (le_of_lt hq0)
  · intro h0
    have hN : (N2 : ℚ) ≤ 0 := by
      by_contra hc
      exact absurd h0 (not_le.2 (div_pos (not_le.1 hc) hD2q))
    have : (m : ℚ) ≤ 0 := by exact_mod_cast h6 (by exact_mod_cast hN)
    exact mul_nonpos_of_nonpos_of_nonneg this (le_of_lt hq0)

theorem rndFrac_exact (f : Fmt) (N : Int) (D : Nat) (s : Int) (hD : 0 < D) (x : ℚ)
    (hx : x = (N : ℚ) / D * (2 : ℚ) ^ s) (hlt : |x| < (2 : ℚ) ^ f.emax) (M j : Int)
    (hM : M.natAbs < 2 ^ f.p) (hj : f.emin - f.p + 1 ≤ j)
    (h : x = (M : ℚ) * (2 : ℚ) ^ j) : (rndFrac f N D s).IsVal x := by
  obtain ⟨N2, D2, hD2, h1, h2⟩ := rndFrac_ratio f N D s hD
  rw [← h2] at hx
  subst hx
  obtain ⟨m, q, h3, h4⟩ := rnd_exact f N2 D2 hD2 hlt M j hM hj h
  exact ⟨m, q, h1.trans h3, h4⟩

theorem truncQ_intCast (z : Int) : truncQ (z : ℚ) = z := by
  unfold truncQ
  split
  · exact Int.floor_intCast z
  · rw [← Int.cast_neg, Int.floor_intCast, neg_neg]

theorem truncQ_of_nonneg (x : ℚ) (h : 0 ≤ x) : truncQ x = ⌊x⌋ := by
  unfold truncQ
  rw [if_pos h]

theorem truncQ_nonneg (x : ℚ) (h : -1 < x) : 0 ≤ truncQ x := by
  unfold truncQ
  split
  · next h0 => exact Int.floor_nonneg.2 h0
  · next h0 =>
    have h1 : ⌊-x⌋ = 0 := by
      rw [Int.floor_eq_iff]
      constructor
      · simp only [Int.cast_zero]; linarith [not_le.1 h0]
      · simp only [Int.cast_zero]; linarith
    rw [h1]
    rfl

theorem truncQ_le_of_nonneg (x : ℚ) (h : 0 ≤ x) : (truncQ x : ℚ) ≤ x := by
  rw [truncQ_of_nonneg x h]
  exact Int.floor_le x

theorem truncQ_gt_of_nonneg (x : ℚ) (h : 0 ≤ x) : x - 1 < (truncQ x : ℚ) := by
  rw [truncQ_of_nonneg x h]
  exact Int.sub_one_lt_floor x

theorem truncQ_nonpos (x : ℚ) (h : x ≤ 0) : truncQ x ≤ 0 := by
  unfold truncQ
  split
  · next h0 =>
    have : x = 0 := le_antisymm h h0
    rw [this]
    simp
  · have : 0 ≤ ⌊-x⌋ := Int.floor_nonneg.2 (by linarith)
    omega

theorem castInt_val (a : FP) (x : ℚ) (ha : a.IsVal x)
    (hlo : -2147483648 ≤ truncQ x) (hhi : truncQ x ≤ 2147483647) :
    castInt a = some (truncQ x) := by
  obtain ⟨m, e, rfl, hx⟩ := ha
  have key : (if 0 ≤ e then m * 2 ^ e.toNat else Int.tdiv m (2 ^ (-e).toNat)) = truncQ x := by
    split
    · next h =>
      have e1 : (2 : ℚ) ^ e = 2 ^ e.toNat := by
        rw [← zpow_natCast, Int.toNat_of_nonneg h]
      have : x = ((m * 2 ^ e.toNat : Int) : ℚ) := by
        rw [← hx, e1]
        push_cast
        rfl
      rw [this, truncQ_intCast]
    · next h =>
      have e1 : (2 : ℚ) ^ e = ((2 : ℚ) ^ (-e).toNat)⁻¹ := by
        rw [← zpow_natCast, Int.toNat_of_nonneg (by omega), zpow_neg, inv_inv]
      have hxd : x = (m : ℚ) / ((2 ^ (-e).toNat : Nat) : ℚ) := by
        rw [← hx, e1]
        push_cast
        rfl
      have hd : ((2 : Int) ^ (-e).toNat) = ((2 ^ (-e).toNat : Nat) : Int) := by
        push_cast
        rfl
      have hdpos : (0 : ℚ) < ((2 ^ (-e).toNat : Nat) : ℚ) := by positivity
      rw [hd]
      rcases le_or_lt 0 m with hm | hm
      · have hx0 : 0 ≤ x := by
          rw [hxd]
          exact div_nonneg (by exact_mod_cast hm) (le_of_lt hdpos)
        rw [truncQ_of_nonneg x hx0, hxd, Rat.floor_intCast_div_natCast,
          Int.tdiv_eq_ediv hm (Int.ofNat_nonneg _)]
      · have hx0 : x < 0 := by
          rw [hxd]
          exact div_neg_of_neg_of_pos (by exact_mod_cast hm) hdpos
        have hnx : -x = ((-m : Int) : ℚ) / ((2 ^ (-e).toNat : Nat) : ℚ) := by
          rw [hxd]
          push_cast
          ring
        unfold truncQ
        rw [if_neg (not_le.2 hx0), hnx, Rat.floor_intCast_div_natCast]
        calc Int.tdiv m _ = Int.tdiv (-(-m)) _ := by rw [neg_neg]
          _ = -(Int.tdiv (-m) _) := Int.neg_tdiv _ _
          _ = _ := by rw [Int.tdiv_eq_ediv (by omega) (Int.ofNat_nonneg _)]
  unfold castInt
  dsimp only
  rw [key, if_pos ⟨hlo, hhi⟩]

theorem ofInt_exact (f : Fmt) (z : Int) (hz : z.natAbs < 2 ^ f.p)
    (hp : (f.p : Int) ≤ f.emax) (hmin : f.emin - f.p + 1 ≤ 0) :
    (ofInt f z).IsVal z := by
  have hlt : |(z : ℚ)| < (2 : ℚ) ^ f.emax := by
    have h1 : |(z : ℚ)| < (2 : ℚ) ^ (f.p : Int) := by
      rw [zpow_natCast, ← Int.cast_abs, ← Nat.cast_natAbs]
      exact_mod_cast hz
    exact lt_of_lt_of_le h1 (zpow_le_zpow_right₀ (by norm_num) hp)
  exact rndFrac_exact f z 1 0 Nat.one_pos z (by simp) hlt z 0 hz hmin (by simp)

theorem mulF_approx (f : Fmt) (a b : FP) (x y : ℚ) (ha : a.IsVal x) (hb : b.IsVal y)
    (hlt : |x * y| < (2 : ℚ) ^ f.emax) :
    ∃ z, (mulF f a b).IsVal z ∧ |z - x * y| ≤ |x * y| * f.u + f.eta ∧
      (0 ≤ x * y → 0 ≤ z) ∧ (x * y ≤ 0 → z ≤ 0) := by
  obtain ⟨m1, e1, rfl, hx⟩ := ha
  obtain ⟨m2, e2, rfl, hy⟩ := hb
  refine rndFrac_approx f (m1 * m2) 1 (e1 + e2) Nat.one_pos (x * y) ?_ hlt
  rw [← hx, ← hy, zpow_add₀ (by norm_num)]
  push_cast
  ring

theorem sign_div_natAbs (m : Int) (hm : m ≠ 0) :
    ((m.sign : Int) : ℚ) / ((m.natAbs : Nat) : ℚ) = 1 / (m : ℚ) := by
  have hmq : (m : ℚ) ≠ 0 := by exact_mod_cast hm
  rcases lt_or_gt_of_ne hm with h | h
  · rw [Int.sign_eq_neg_one_of_neg h, Nat.cast_natAbs, abs_of_neg h]
    push_cast
    field_simp
  · rw [Int.sign_eq_one_of_pos h, Nat.cast_natAbs, abs_of_pos h]
    push_cast
    rfl

theorem divF_fin (f : Fmt) (m1 e1 m2 e2 : Int) (hm : m2 ≠ 0) :
    divF f (.fin m1 e1) (.fin m2 e2) = rndFrac f (m1 * m2.sign) m2.natAbs (e1 - e2) := by
  show (if m2 = 0 then (if m1 = 0 then FP.nan else FP.inf (decide (m1 < 0)))
    else rndFrac f (m1 * m2.sign) m2.natAbs (e1 - e2)) = _
  rw [if_neg hm]

theorem divF_value (m1 e1 m2 e2 : Int) (hm : m2 ≠ 0) :
    (m1 : ℚ) * (2 : ℚ) ^ e1 / ((m2 : ℚ) * (2 : ℚ) ^ e2)
      = ((m1 * m2.sign : Int) : ℚ) / ((m2.natAbs : Nat) : ℚ) * (2 : ℚ) ^ (e1 - e2) := by
  have hmq : (m2 : ℚ) ≠ 0 := by exact_mod_cast hm
  have h2 : (2 : ℚ) ^ e2 ≠ 0 := by positivity
  have e3 : ((m1 * m2.sign : Int) : ℚ) / ((m2.natAbs : Nat) : ℚ)
      = (m1 : ℚ) * (((m2.sign : Int) : ℚ) / ((m2.natAbs : Nat) : ℚ)) := by
    rw [Int.cast_mul, mul_div_assoc]
  rw [e3, sign_div_natAbs m2 hm, zpow_sub₀ (by norm_num)]
  field_simp

theorem divF_approx (f : Fmt) (a b : FP) (x y : ℚ) (ha : a.IsVal x) (hb : b.IsVal y)
    (hy0 : y ≠ 0) (hlt : |x / y| < (2 : ℚ) ^ f.emax) :
    ∃ z, (divF f a b).IsVal z ∧ |z - x / y| ≤ |x / y| * f.u + f.eta ∧
      (0 ≤ x / y → 0 ≤ z) ∧ (x / y ≤ 0 → z ≤ 0) := by
  obtain ⟨m1, e1, rfl, hx⟩ := ha
  obtain ⟨m2, e2, rfl, hy⟩ := hb
  have hm : m2 ≠ 0 := by
    rintro rfl
    apply hy0
    rw [← hy]
    simp
  rw [divF_fin f m1 e1 m2 e2 hm]
  refine rndFrac_approx f _ _ _ (Int.natAbs_pos.2 hm) (x / y) ?_ hlt
  rw [← hx, ← hy]
  exact divF_value m1 e1 m2 e2 hm

theorem aligned_value (m e e0 : Int) (h : e0 ≤ e) :
    ((m * 2 ^ (e - e0).toNat : Int) : ℚ) * (2 : ℚ) ^ e0 = (m : ℚ) * (2 : ℚ) ^ e := by
  have e1 : (2 : ℚ) ^ (e - e0).toNat = (2 : ℚ) ^ (e - e0) := by
    rw [← zpow_natCast, Int.toNat_of_nonneg (by omega)]
  push_cast
  rw [e1, mul_assoc, ← zpow_add₀ (by norm_num)]
  congr 2
  ring

theorem subF_value (m1 e1 m2 e2 : Int) :
    (m1 : ℚ) * (2 : ℚ) ^ e1 - (m2 : ℚ) * (2 : ℚ) ^ e2
      = ((m1 * 2 ^ (e1 - min e1 e2).toNat - m2 * 2 ^ (e2 - min e1 e2).toNat : Int) : ℚ)
          / ((1 : Nat) : ℚ) * (2 : ℚ) ^ (min e1 e2) := by
  rw [Nat.cast_one, div_one, Int.cast_sub, sub_mul,
    aligned_value m1 e1 _ (min_le_left e1 e2), aligned_value m2 e2 _ (min_le_right e1 e2)]

theorem subF_approx (f : Fmt) (a b : FP) (x y : ℚ) (ha : a.IsVal x) (hb : b.IsVal y)
    (hlt : |x - y| < (2 : ℚ) ^ f.emax) :
    ∃ z, (subF f a b).IsVal z ∧ |z - (x - y)| ≤ |x - y| * f.u + f.eta ∧
      (0 ≤ x - y → 0 ≤ z) ∧ (x - y ≤ 0 → z ≤ 0) := by
  obtain ⟨m1, e1, rfl, hx⟩ := ha
  obtain ⟨m2, e2, rfl, hy⟩ := hb
  refine rndFrac_approx f _ 1 (min e1 e2) Nat.one_pos (x - y) ?_ hlt
  rw [← hx, ← hy]
  exact subF_value m1 e1 m2 e2

theorem ltF_iff (a b : FP) (x y : ℚ) (ha : a.IsVal x) (hb : b.IsVal y) :
    ltF a b = true ↔ x < y := by
  obtain ⟨m1, e1, rfl, hx⟩ := ha
  obtain ⟨m2, e2, rfl, hy⟩ := hb
  have h0 : (0 : ℚ) < (2 : ℚ) ^ (min e1 e2) := by positivity
  unfold ltF
  rw [decide_eq_true_iff, ← hx, ← hy, ← aligned_value m1 e1 _ (min_le_left e1 e2),
    ← aligned_value m2 e2 _ (min_le_right e1 e2), mul_lt_mul_right h0]
  exact Int.cast_lt.symm

/-! ### The two formats -/

theorem binary32_u : binary32.u = 1 / 2 ^ 24 := by
  unfold Fmt.u binary32
  norm_num [zpow_neg]

theorem binary64_u : binary64.u = 1 / 2 ^ 53 := by
  unfold Fmt.u binary64
  norm_num [zpow_neg]

theorem binary32_eta : binary32.eta ≤ 1 / 2 ^ 64 := by
  unfold Fmt.eta binary32
  norm_num [zpow_neg]

theorem binary64_eta : binary64.eta ≤ 1 / 2 ^ 64 := by
  unfold Fmt.eta binary64
  norm_num [zpow_neg]

theorem binary32_range (x : ℚ) (h : |x| ≤ 2 ^ 64) : |x| < (2 : ℚ) ^ binary32.emax := by
  have : (2 : ℚ) ^ binary32.emax = 2 ^ 127 := by
    unfold binary32
    norm_num
  rw [this]
  exact lt_of_le_of_lt h (by norm_num)

theorem binary64_range (x : ℚ) (h : |x| ≤ 2 ^ 64) : |x| < (2 : ℚ) ^ binary64.emax := by
  have : (2 : ℚ) ^ binary64.emax = 2 ^ 1023 := by
    unfold binary64
    norm_num
  rw [this]
  exact lt_of_le_of_lt h (by norm_num)

theorem near32 (z x : ℚ) (h1 : |z - x| ≤ |x| * binary32.u + binary32.eta)
    (h2 : 0 ≤ x → 0 ≤ z) (h3 : x ≤ 0 → z ≤ 0) : Near (1 / 2 ^ 24) z x := by
  refine ⟨?_, h2, h3⟩
  rw [binary32_u] at h1
  linarith [binary32_eta]

theorem near64 (z x : ℚ) (h1 : |z - x| ≤ |x| * binary64.u + binary64.eta)
    (h2 : 0 ≤ x → 0 ≤ z) (h3 : x ≤ 0 → z ≤ 0) : Near (1 / 2 ^ 53) z x := by
  refine ⟨?_, h2, h3⟩
  rw [binary64_u] at h1
  linarith [binary64_eta]

theorem divF32 (a b : FP) (x y : ℚ) (ha : a.IsVal x) (hb : b.IsVal y) (hy0 : y ≠ 0)
    (hlt : |x / y| ≤ 2 ^ 64) :
    ∃ z, (divF binary32 a b).IsVal z ∧ Near (1 / 2 ^ 24) z (x / y) := by
  obtain ⟨z, h0, h1, h2, h3⟩ :=
    divF_approx binary32 a b x y ha hb hy0 (binary32_range _ hlt)
  exact ⟨z, h0, near32 z _ h1 h2 h3⟩

theorem mulF32 (a b : FP) (x y : ℚ) (ha : a.IsVal x) (hb : b.IsVal y)
    (hlt : |x * y| ≤ 2 ^ 64) :
    ∃ z, (mulF binary32 a b).IsVal z ∧ Near (1 / 2 ^ 24) z (x * y) := by
  obtain ⟨z, h0, h1, h2, h3⟩ := mulF_approx binary32 a b x y ha hb (binary32_range _ hlt)
  exact ⟨z, h0, near32 z _ h1 h2 h3⟩

theorem subF32 (a b : FP) (x y : ℚ) (ha : a.IsVal x) (hb : b.IsVal y)
    (hlt : |x - y| ≤ 2 ^ 64) :
    ∃ z, (subF binary32 a b).IsVal z ∧ Near (1 / 2 ^ 24) z (x - y) := by
  obtain ⟨z, h0, h1, h2, h3⟩ := subF_approx binary32 a b x y ha hb (binary32_range _ hlt)
  exact ⟨z, h0, near32 z _ h1 h2 h3⟩

theorem divF64 (a b : FP) (x y : ℚ) (ha : a.IsVal x) (hb : b.IsVal y) (hy0 : y ≠ 0)
    (hlt : |x / y| ≤ 2 ^ 64) :
    ∃ z, (divF binary64 a b).IsVal z ∧ Near (1 / 2 ^ 53) z (x / y) := by
  obtain ⟨z, h0, h1, h2, h3⟩ :=
    divF_approx binary64 a b x y ha hb hy0 (binary64_range _ hlt)
  exact ⟨z, h0, near64 z _ h1 h2 h3⟩

theorem mulF64 (a b : FP) (x y : ℚ) (ha : a.IsVal x) (hb : b.IsVal y)
    (hlt : |x * y| ≤ 2 ^ 64) :
    ∃ z, (mulF binary64 a b).IsVal z ∧ Near (1 / 2 ^ 53) z (x * y) := by
  obtain ⟨z, h0, h1, h2, h3⟩ := mulF_approx binary64 a b x y ha hb (binary64_range _ hlt)
  exact ⟨z, h0, near64 z _ h1 h2 h3⟩

theorem ofInt32_exact (z : Int) (hz : z.natAbs < 2 ^ 24) : (ofInt binary32 z).IsVal z :=
  ofInt_exact binary32 z hz (by decide) (by decide)

theorem ofInt64_exact (z : Int) (hz : z.natAbs < 2 ^ 53) : (ofInt binary64 z).IsVal z :=
  ofInt_exact binary64 z hz (by decide) (by decide)

theorem isVal_half : (FP.fin 1 (-1)).IsVal (1 / 2) := ⟨1, -1, rfl, by norm_num [zpow_neg]⟩

theorem castInt_zero (a : FP) (ha : a.IsVal 0) : castInt a = some 0 := by
  have h := castInt_val a 0 ha (by rw [show truncQ 0 = 0 from truncQ_intCast 0]; decide)
    (by rw [show truncQ 0 = 0 from truncQ_intCast 0]; decide)
  rw [h, show truncQ 0 = 0 from truncQ_intCast 0]

theorem castInt_int (a : FP) (z : Int) (ha : a.IsVal z)
    (hlo : -2147483648 ≤ z) (hhi : z ≤ 2147483647) : castInt a = some z := by
  have h := castInt_val a z ha (by rw [truncQ_intCast]; exact hlo)
    (by rw [truncQ_intCast]; exact hhi)
  rw [h, truncQ_intCast]

theorem Near.upper {U z x : ℚ} (h : Near U z x) (hx : 0 ≤ x) :
    z ≤ x * (1 + U) + 1 / 2 ^ 64 := by
  have h1 := (abs_le.1 h.1).2
  rw [abs_of_nonneg hx] at h1
  linarith

theorem Near.lower {U z x : ℚ} (h : Near U z x) (hx : 0 ≤ x) :
    x * (1 - U) - 1 / 2 ^ 64 ≤ z := by
  have h1 := (abs_le.1 h.1).1
  rw [abs_of_nonneg hx] at h1
  linarith

theorem Near.abs_bound {U z x : ℚ} (h : Near U z x) :
    |z| ≤ |x| * (1 + U) + 1 / 2 ^ 64 := by
  have h1 : |z| ≤ |z - x| + |x| := by
    have := abs_add (z - x) x
    rwa [sub_add_cancel] at this
  linarith [h.1]

/-! ### Contain-fit -/

theorem mkRect_eq (x y width height : FP) (x0 y0 w0 h0 : Int)
    (h1 : castInt x = some x0) (h2 : castInt y = some y0)
    (h3 : castInt width = some w0) (h4 : castInt height = some h0) :
    mkRect x y width height = some ⟨x0, y0, w0, h0⟩ := by
  unfold mkRect
  rw [h1, h2, h3, h4]
  rfl

theorem center32 (Hf df : FP) (H : Int) (d : ℚ) (hH1 : 1 ≤ H) (hH2 : H ≤ 2 ^ 20)
    (hHf : Hf.IsVal H) (hdf : df.IsVal d) (hd0 : 0 ≤ d) (hd1 : d < H + 1 / 2) :
    ∃ y0 h0 : Int,
      castInt (mulF binary32 (subF binary32 Hf df) (.fin 1 (-1))) = some y0 ∧
      castInt df = some h0 ∧ 0 ≤ y0 ∧ 0 ≤ h0 ∧ y0 + h0 ≤ H := by
  have hq1 : (1 : ℚ) ≤ H := by exact_mod_cast hH1
  have hq2 : (H : ℚ) ≤ 2 ^ 20 := by exact_mod_cast hH2
  have hsub : |(H : ℚ) - d| ≤ 2 ^ 64 := by
    rw [abs_le]
    constructor <;> linarith
  obtain ⟨T, hT, nT⟩ := subF32 Hf df H d hHf hdf hsub
  have hTabs : |T| ≤ 2 ^ 22 := by
    have h1 := nT.abs_bound
    have h2 : |(H : ℚ) - d| ≤ 2 ^ 21 := by
      rw [abs_le]
      constructor <;> linarith
    norm_num at h1 ⊢
    linarith
  have hmul : |T * (1 / 2)| ≤ 2 ^ 64 := by
    rw [abs_mul, abs_of_pos (by norm_num : (0 : ℚ) < 1 / 2)]
    linarith
  obtain ⟨Y, hY, nY⟩ := mulF32 _ _ T (1 / 2) hT isVal_half hmul
  have hYabs : |Y| ≤ 2 ^ 22 := by
    have h1 := nY.abs_bound
    have h2 : |T * (1 / 2)| ≤ 2 ^ 21 := by
      rw [abs_mul, abs_of_pos (by norm_num : (0 : ℚ) < 1 / 2)]
      linarith
    norm_num at h1 h2 ⊢
    linarith
  have hfloor0 : 0 ≤ ⌊d⌋ := Int.floor_nonneg.2 hd0
  have hfloorH : ⌊d⌋ ≤ H := by
    have : ⌊d⌋ < H + 1 := Int.floor_lt.2 (by push_cast; linarith)
    omega
  have htd : truncQ d = ⌊d⌋ := truncQ_of_nonneg d hd0
  have hcd : castInt df = some ⌊d⌋ := by
    have h := castInt_val df d hdf (by rw [htd]; omega) (by rw [htd]; omega)
    rw [h, htd]
  have hYlo : -4194304 ≤ truncQ Y ∧ truncQ Y ≤ 4194304 := by
    have h1 := abs_le.1 hYabs
    rcases le_or_lt 0 Y with h0 | h0
    · rw [truncQ_of_nonneg Y h0]
      constructor
      · have := Int.floor_nonneg.2 h0
        omega
      · have : ((⌊Y⌋ : Int) : ℚ) ≤ 4194304 := le_trans (Int.floor_le Y) (by linarith [h1.2])
        exact_mod_cast this
    · unfold truncQ
      rw [if_neg (not_le.2 h0)]
      have h2 : 0 ≤ ⌊-Y⌋ := Int.floor_nonneg.2 (by linarith)
      have h3 : ((⌊-Y⌋ : Int) : ℚ) ≤ 4194304 := le_trans (Int.floor_le (-Y)) (by linarith [h1.1])
      have h4 : ⌊-Y⌋ ≤ 4194304 := by exact_mod_cast h3
      constructor <;> omega
  have hcY : castInt (mulF binary32 (subF binary32 Hf df) (.fin 1 (-1))) = some (truncQ Y) :=
    castInt_val _ Y hY (by omega) (by omega)
  refine ⟨truncQ Y, ⌊d⌋, hcY, hcd, ?_, hfloor0, ?_⟩
  · apply truncQ_nonneg
    rcases le_or_lt 0 ((H : ℚ) - d) with h0 | h0
    · have hT0 := nT.2.1 h0
      have hY0 := nY.2.1 (by linarith)
      linarith
    · have hT0 := nT.2.2 (le_of_lt h0)
      have h1 := (abs_le.1 nT.1).1
      rw [abs_of_neg h0] at h1
      have h2 := (abs_le.1 nY.1).1
      rw [abs_of_nonpos (by linarith : T * (1 / 2) ≤ 0)] at h2
      norm_num at h1 h2
      linarith
  · rcases le_or_lt 0 ((H : ℚ) - d) with h0 | h0
    · have hT0 := nT.2.1 h0
      have hTu := nT.upper h0
      have hY0 := nY.2.1 (by linarith)
      have hYu := nY.upper (by linarith : (0 : ℚ) ≤ T * (1 / 2))
      have h1 : (truncQ Y : ℚ) ≤ Y := truncQ_le_of_nonneg Y hY0
      have h2 : ((⌊d⌋ : Int) : ℚ) ≤ d := Int.floor_le d
      have h3 : ((truncQ Y + ⌊d⌋ : Int) : ℚ) < (H : ℚ) + 1 := by
        push_cast
        norm_num at hTu hYu
        linarith
      have h4 : truncQ Y + ⌊d⌋ < H + 1 := by exact_mod_cast h3
      omega
    · have hT0 := nT.2.2 (le_of_lt h0)
      have hY0 := nY.2.2 (by linarith)
      have := truncQ_nonpos Y hY0
      omega

theorem contain_fit_inside (w h : Nat) (rc : RECT)
    (hw1 : 1 ≤ w) (hw2 : w ≤ 2 ^ 20) (hh1 : 1 ≤ h) (hh2 : h ≤ 2 ^ 20)
    (hW1 : 1 ≤ rc.right) (hW2 : rc.right ≤ 2 ^ 20)
    (hH1 : 1 ≤ rc.bottom) (hH2 : rc.bottom ≤ 2 ^ 20) :
    ∃ r, CalcAspectFit w h rc = some r ∧
      0 ≤ r.X ∧ 0 ≤ r.Y ∧
      r.X + r.Width ≤ rc.right ∧ r.Y + r.Height ≤ rc.bottom ∧
      ((r.X = 0 ∧ r.Width = rc.right) ∨ (r.Y = 0 ∧ r.Height = rc.bottom)) := by
  have qw1 : (1 : ℚ) ≤ w := by exact_mod_cast hw1
  have qw2 : (w : ℚ) ≤ 2 ^ 20 := by exact_mod_cast hw2
  have qh1 : (1 : ℚ) ≤ h := by exact_mod_cast hh1
  have qh2 : (h : ℚ) ≤ 2 ^ 20 := by exact_mod_cast hh2
  have qW1 : (1 : ℚ) ≤ rc.right := by exact_mod_cast hW1
  have qW2 : (rc.right : ℚ) ≤ 2 ^ 20 := by exact_mod_cast hW2
  have qH1 : (1 : ℚ) ≤ rc.bottom := by exact_mod_cast hH1
  have qH2 : (rc.bottom : ℚ) ≤ 2 ^ 20 := by exact_mod_cast hH2
  -- the four conversions are exact
  have vw : (ofInt binary32 (w : Int)).IsVal (w : ℚ) := by
    have := ofInt32_exact (w : Int) (by simp only [Int.natAbs_ofNat]; omega)
    rwa [Int.cast_natCast] at this
  have vh : (ofInt binary32 (h : Int)).IsVal (h : ℚ) := by
    have := ofInt32_exact (h : Int) (by simp only [Int.natAbs_ofNat]; omega)
    rwa [Int.cast_natCast] at this
  have vW : (ofInt binary32 rc.right).IsVal (rc.right : ℚ) :=
    ofInt32_exact rc.right (by omega)
  have vH : (ofInt binary32 rc.bottom).IsVal (rc.bottom : ℚ) :=
    ofInt32_exact rc.bottom (by omega)
  have v0 : (ofInt binary32 0).IsVal 0 := by
    have := ofInt32_exact 0 (by decide)
    rwa [Int.cast_zero] at this
  -- the two aspect ratios
  have ha0 : (1 : ℚ) / 2 ^ 20 ≤ (w : ℚ) / h := by
    rw [div_le_div_iff₀ (by positivity) (by linarith)]
    linarith
  have ha1 : (w : ℚ) / h ≤ 2 ^ 20 := by
    rw [div_le_iff₀ (by linarith)]
    nlinarith
  have hr0 : (rc.right : ℚ) / 2 ^ 20 ≤ (rc.right : ℚ) / rc.bottom :=
    div_le_div_of_nonneg_left (by linarith) (by linarith) qH2
  have hr1 : (rc.right : ℚ) / rc.bottom ≤ 2 ^ 20 := by
    rw [div_le_iff₀ (by linarith)]
    nlinarith
  have hrH : (rc.right : ℚ) / rc.bottom * rc.bottom = rc.right :=
    div_mul_cancel₀ _ (by linarith)
  obtain ⟨A, vA, nA⟩ := divF32 _ _ (w : ℚ) h vw vh (by linarith)
    (by rw [abs_of_nonneg (by positivity)]; linarith)
  obtain ⟨R, vR, nR⟩ := divF32 _ _ (rc.right : ℚ) rc.bottom vW vH (by linarith)
    (by rw [abs_of_nonneg (by linarith)]; linarith)
  have hAlo := nA.lower (by linarith)
  have hAup := nA.upper (by linarith)
  have hRlo := nR.lower (by linarith)
  have hRup := nR.upper (by linarith)
  have hApos : 0 < A := by
    norm_num at hAlo ha0
    linarith
  have hcW : castInt (ofInt binary32 rc.right) = some rc.right :=
    castInt_int _ _ vW (by omega) (by omega)
  have hcH : castInt (ofInt binary32 rc.bottom) = some rc.bottom :=
    castInt_int _ _ vH (by omega) (by omega)
  have hc0 : castInt (ofInt binary32 0) = some 0 := castInt_zero _ v0
  unfold CalcAspectFit
  dsimp only
  by_cases hlt : R < A
  · rw [if_pos ((ltF_iff _ _ R A vR vA).2 hlt)]
    -- the height `wndW / imgAspect` stays below `H + 1/2`
    have key : (rc.right : ℚ) < A * ((rc.bottom : ℚ) + 1 / 4) := by
      have h1 : ((rc.right : ℚ) / rc.bottom * (1 - 1 / 2 ^ 24) - 1 / 2 ^ 64)
          * ((rc.bottom : ℚ) + 1 / 4) < A * ((rc.bottom : ℚ) + 1 / 4) :=
        mul_lt_mul_of_pos_right (by linarith) (by linarith)
      have h2 : ((rc.right : ℚ) / rc.bottom * (1 - 1 / 2 ^ 24) - 1 / 2 ^ 64)
          * ((rc.bottom : ℚ) + 1 / 4)
          = (rc.right : ℚ) / rc.bottom * rc.bottom * (1 - 1 / 2 ^ 24)
            + (rc.right : ℚ) / rc.bottom * (1 - 1 / 2 ^ 24) / 4
            - 1 / 2 ^ 64 * ((rc.bottom : ℚ) + 1 / 4) := by ring
      rw [h2, hrH] at h1
      norm_num at h1 hr0 ⊢
      linarith
    have hv1 : (rc.right : ℚ) / A < (rc.bottom : ℚ) + 1 / 4 := by
      rw [div_lt_iff₀ hApos]
      linarith
    have hv0 : 0 ≤ (rc.right : ℚ) / A := div_nonneg (by linarith) (le_of_lt hApos)
    obtain ⟨d, vd, nd⟩ := divF32 _ _ (rc.right : ℚ) A vW vA (ne_of_gt hApos)
      (by rw [abs_of_nonneg hv0]; linarith)
    have hd0 : 0 ≤ d := nd.2.1 hv0
    have hd1 : d < (rc.bottom : ℚ) + 1 / 2 := by
      have := nd.upper hv0
      norm_num at this ⊢
      linarith
    obtain ⟨y0, h0, e1, e2, p1, p2, p3⟩ :=
      center32 _ _ rc.bottom d hH1 hH2 vH vd hd0 hd1
    refine ⟨_, mkRect_eq _ _ _ _ 0 y0 rc.right h0 hc0 e1 hcW e2, ?_⟩
    exact ⟨le_refl _, p1, by simp, p3, Or.inl ⟨rfl, rfl⟩⟩
  · rw [if_neg (fun hc => hlt ((ltF_iff _ _ R A vR vA).1 hc))]
    have hAR : A ≤ R := not_lt.1 hlt
    -- the width `wndH * imgAspect` stays below `W + 1/2`
    have hv0 : 0 ≤ (rc.bottom : ℚ) * A := mul_nonneg (by linarith) (le_of_lt hApos)
    have hv1 : (rc.bottom : ℚ) * A ≤ (rc.right : ℚ) * (1 + 1 / 2 ^ 24)
        + 1 / 2 ^ 64 * rc.bottom := by
      have h1 : (rc.bottom : ℚ) * A
          ≤ (rc.bottom : ℚ) * ((rc.right : ℚ) / rc.bottom * (1 + 1 / 2 ^ 24) + 1 / 2 ^ 64) :=
        mul_le_mul_of_nonneg_left (by linarith) (by linarith)
      have h2 : (rc.bottom : ℚ) * ((rc.right : ℚ) / rc.bottom * (1 + 1 / 2 ^ 24) + 1 / 2 ^ 64)
          = (rc.right : ℚ) / rc.bottom * rc.bottom * (1 + 1 / 2 ^ 24)
            + 1 / 2 ^ 64 * rc.bottom := by ring
      rw [h2, hrH] at h1
      exact h1
    obtain ⟨d, vd, nd⟩ := mulF32 _ _ (rc.bottom : ℚ) A vH vA
      (by rw [abs_of_nonneg hv0]; norm_num at hv1 ⊢; linarith)
    have hd0 : 0 ≤ d := nd.2.1 hv0
    have hd1 : d < (rc.right : ℚ) + 1 / 2 := by
      have := nd.upper hv0
      norm_num at this hv1 ⊢
      linarith
    obtain ⟨x0, w0, e1, e2, p1, p2, p3⟩ :=
      center32 _ _ rc.right d hW1 hW2 vW vd hd0 hd1
    refine ⟨_, mkRect_eq _ _ _ _ x0 0 w0 rc.bottom e1 hc0 e2 hcH, ?_⟩
    exact ⟨p1, le_refl _, p3, by simp, Or.inr ⟨rfl, rfl⟩⟩

/-! ### Cover-fit -/

theorem intOp_eq (z : Int) (h1 : -2147483648 ≤ z) (h2 : z ≤ 2147483647) :
    intOp z = some z := by
  unfold intOp
  rw [if_pos ⟨h1, h2⟩]

theorem DrawUI_eq (rc : RECT) (imgW imgH : Nat) (dW dH : Int)
    (h1 : intOp (rc.right - rc.left) = some (rc.right - rc.left))
    (h2 : intOp (rc.bottom - rc.top) = some (rc.bottom - rc.top))
    (h3 : castInt (mulF binary64 (ofInt binary64 imgW)
      (coverScale (rc.right - rc.left) (rc.bottom - rc.top) imgW imgH)) = some dW)
    (h4 : castInt (mulF binary64 (ofInt binary64 imgH)
      (coverScale (rc.right - rc.left) (rc.bottom - rc.top) imgW imgH)) = some dH)
    (h5 : intOp (rc.right - rc.left - dW) = some (rc.right - rc.left - dW))
    (h6 : intOp (rc.bottom - rc.top - dH) = some (rc.bottom - rc.top - dH)) :
    DrawUI rc imgW imgH = some
      ⟨Int.tdiv (rc.right - rc.left - dW) 2, Int.tdiv (rc.bottom - rc.top - dH) 2, dW, dH⟩ := by
  unfold coverScale at h3 h4
  unfold DrawUI
  simp only [h1, h2, h3, h4, h5, h6, Option.bind_eq_bind, Option.some_bind, Option.pure_def,
    bind_pure_comp, Option.map_some', Option.map_eq_map]

theorem coverScale_val (tW tH : Int) (imgW imgH : Nat)
    (hW1 : 1 ≤ imgW) (hW2 : imgW ≤ 32768) (hH1 : 1 ≤ imgH) (hH2 : imgH ≤ 32768)
    (htW1 : 0 ≤ tW) (htW2 : tW ≤ 32768) (htH1 : 0 ≤ tH) (htH2 : tH ≤ 32768) :
    ∃ S, (coverScale tW tH imgW imgH).IsVal S ∧ 0 ≤ S ∧ S ≤ 32769 := by
  have qW1 : (1 : ℚ) ≤ imgW := by exact_mod_cast hW1
  have qH1 : (1 : ℚ) ≤ imgH := by exact_mod_cast hH1
  have qtW1 : (0 : ℚ) ≤ tW := by exact_mod_cast htW1
  have qtW2 : (tW : ℚ) ≤ 32768 := by exact_mod_cast htW2
  have qtH1 : (0 : ℚ) ≤ tH := by exact_mod_cast htH1
  have qtH2 : (tH : ℚ) ≤ 32768 := by exact_mod_cast htH2
  have viW : (ofInt binary64 (imgW : Int)).IsVal (imgW : ℚ) := by
    have := ofInt64_exact (imgW : Int) (by simp only [Int.natAbs_ofNat]; omega)
    rwa [Int.cast_natCast] at this
  have viH : (ofInt binary64 (imgH : Int)).IsVal (imgH : ℚ) := by
    have := ofInt64_exact (imgH : Int) (by simp only [Int.natAbs_ofNat]; omega)
    rwa [Int.cast_natCast] at this
  have vtW : (ofInt binary64 tW).IsVal (tW : ℚ) := ofInt64_exact tW (by omega)
  have vtH : (ofInt binary64 tH).IsVal (tH : ℚ) := ofInt64_exact tH (by omega)
  have hx0 : (0 : ℚ) ≤ (tW : ℚ) / imgW := div_nonneg qtW1 (by linarith)
  have hx1 : (tW : ℚ) / imgW ≤ 32768 := by
    rw [div_le_iff₀ (by linarith)]
    nlinarith
  have hy0 : (0 : ℚ) ≤ (tH : ℚ) / imgH := div_nonneg qtH1 (by linarith)
  have hy1 : (tH : ℚ) / imgH ≤ 32768 := by
    rw [div_le_iff₀ (by linarith)]
    nlinarith
  obtain ⟨X, vX, nX⟩ := divF64 _ _ (tW : ℚ) imgW vtW viW (by linarith)
    (by rw [abs_of_nonneg hx0]; linarith)
  obtain ⟨Y, vY, nY⟩ := divF64 _ _ (tH : ℚ) imgH vtH viH (by linarith)
    (by rw [abs_of_nonneg hy0]; linarith)
  have hXu := nX.upper hx0
  have hYu := nY.upper hy0
  unfold coverScale
  split
  · refine ⟨X, vX, nX.2.1 hx0, ?_⟩
    norm_num at hXu ⊢
    linarith
  · refine ⟨Y, vY, nY.2.1 hy0, ?_⟩
    norm_num at hYu ⊢
    linarith

theorem scaled_side (f : FP) (S : ℚ) (n : Nat) (hf : f.IsVal S) (hS0 : 0 ≤ S)
    (hS1 : S ≤ 32769) (hn1 : 1 ≤ n) (hn2 : n ≤ 32768) :
    ∃ d : Int, castInt (mulF binary64 (ofInt binary64 n) f) = some d ∧
      0 ≤ d ∧ d ≤ 1073807361 ∧
      (d : ℚ) ≤ (n : ℚ) * S + 1 / 2 ^ 21 ∧ (n : ℚ) * S - 1 / 2 ^ 21 - 1 < (d : ℚ) := by
  have qn1 : (1 : ℚ) ≤ n := by exact_mod_cast hn1
  have qn2 : (n : ℚ) ≤ 32768 := by exact_mod_cast hn2
  have vn : (ofInt binary64 (n : Int)).IsVal (n : ℚ) := by
    have := ofInt64_exact (n : Int) (by simp only [Int.natAbs_ofNat]; omega)
    rwa [Int.cast_natCast] at this
  have hP0 : (0 : ℚ) ≤ (n : ℚ) * S := mul_nonneg (by linarith) hS0
  have hP1 : (n : ℚ) * S ≤ 1073774592 := by nlinarith
  obtain ⟨A, vA, nA⟩ := mulF64 _ _ (n : ℚ) S vn hf
    (by rw [abs_of_nonneg hP0]; linarith)
  have hA0 : 0 ≤ A := nA.2.1 hP0
  have hAu := nA.upper hP0
  have hAl := nA.lower hP0
  have hAu2 : A ≤ (n : ℚ) * S + 1 / 2 ^ 21 := by
    norm_num at hAu ⊢
    linarith
  have hAl2 : (n : ℚ) * S - 1 / 2 ^ 21 ≤ A := by
    norm_num at hAl ⊢
    linarith
  have ht : truncQ A = ⌊A⌋ := truncQ_of_nonneg A hA0
  have hf0 : 0 ≤ ⌊A⌋ := Int.floor_nonneg.2 hA0
  have hf1 : ((⌊A⌋ : Int) : ℚ) ≤ A := Int.floor_le A
  have hf2 : A - 1 < ((⌊A⌋ : Int) : ℚ) := Int.sub_one_lt_floor A
  have hf3 : ⌊A⌋ ≤ 1073807361 := by
    have : ((⌊A⌋ : Int) : ℚ) ≤ 1073807361 := by
      norm_num at hAu2
      linarith
    exact_mod_cast this
  have hc : castInt (mulF binary64 (ofInt binary64 n) f) = some ⌊A⌋ := by
    have h := castInt_val _ A vA (by rw [ht]; omega) (by rw [ht]; omega)
    rw [h, ht]
  exact ⟨⌊A⌋, hc, hf0, hf3, by linarith, by linarith⟩

theorem cover_fit_deviation (rc : RECT) (imgW imgH : Nat)
    (hW1 : 1 ≤ imgW) (hW2 : imgW ≤ 32768) (hH1 : 1 ≤ imgH) (hH2 : imgH ≤ 32768)
    (htW1 : 1 ≤ rc.right - rc.left) (htW2 : rc.right - rc.left ≤ 32768)
    (htH1 : 1 ≤ rc.bottom - rc.top) (htH2 : rc.bottom - rc.top ≤ 32768) :
    ∃ r, DrawUI rc imgW imgH = some r ∧
      -(imgH : Int) ≤ r.Width * imgH - r.Height * imgW ∧
      r.Width * imgH - r.Height * imgW ≤ imgW := by
  obtain ⟨S, vS, hS0, hS1⟩ := coverScale_val (rc.right - rc.left) (rc.bottom - rc.top)
    imgW imgH hW1 hW2 hH1 hH2 (by omega) htW2 (by omega) htH2
  obtain ⟨dW, cW, w0, w1, w2, w3⟩ := scaled_side _ S imgW vS hS0 hS1 hW1 hW2
  obtain ⟨dH, cH, h0, h1, h2, h3⟩ := scaled_side _ S imgH vS hS0 hS1 hH1 hH2
  refine ⟨_, DrawUI_eq rc imgW imgH dW dH (intOp_eq _ (by omega) (by omega))
    (intOp_eq _ (by omega) (by omega)) cW cH (intOp_eq _ (by omega) (by omega))
    (intOp_eq _ (by omega) (by omega)), ?_⟩
  dsimp only
  have qW1 : (1 : ℚ) ≤ imgW := by exact_mod_cast hW1
  have qW2 : (imgW : ℚ) ≤ 32768 := by exact_mod_cast hW2
  have qH1 : (1 : ℚ) ≤ imgH := by exact_mod_cast hH1
  have qH2 : (imgH : ℚ) ≤ 32768 := by exact_mod_cast hH2
  have a1 : (dW : ℚ) * imgH ≤ ((imgW : ℚ) * S + 1 / 2 ^ 21) * imgH :=
    mul_le_mul_of_nonneg_right w2 (by linarith)
  have a2 : ((imgW : ℚ) * S - 1 / 2 ^ 21 - 1) * imgH < (dW : ℚ) * imgH :=
    mul_lt_mul_of_pos_right w3 (by linarith)
  have b1 : (dH : ℚ) * imgW ≤ ((imgH : ℚ) * S + 1 / 2 ^ 21) * imgW :=
    mul_le_mul_of_nonneg_right h2 (by linarith)
  have b2 : ((imgH : ℚ) * S - 1 / 2 ^ 21 - 1) * imgW < (dH : ℚ) * imgW :=
    mul_lt_mul_of_pos_right h3 (by linarith)
  have e1 : ((imgW : ℚ) * S + 1 / 2 ^ 21) * imgH - ((imgH : ℚ) * S - 1 / 2 ^ 21 - 1) * imgW
      = 1 / 2 ^ 21 * ((imgH : ℚ) + imgW) + imgW := by ring
  have e2 : ((imgW : ℚ) * S - 1 / 2 ^ 21 - 1) * imgH - ((imgH : ℚ) * S + 1 / 2 ^ 21) * imgW
      = -(1 / 2 ^ 21 * ((imgH : ℚ) + imgW)) - imgH := by ring
  constructor
  · have : (-(imgH : Int) - 1 : ℚ) < ((dW * imgH - dH * imgW : Int) : ℚ) := by
      push_cast
      norm_num at e2 ⊢
      linarith
    have h4 : -(imgH : Int) - 1 < dW * imgH - dH * imgW := by exact_mod_cast this
    omega
  · have : ((dW * imgH - dH * imgW : Int) : ℚ) < (imgW : ℚ) + 1 := by
      push_cast
      norm_num at e1 ⊢
      linarith
    have h4 : dW * imgH - dH * imgW < (imgW : Int) + 1 := by exact_mod_cast this
    omega

theorem coverScale_lower (tW tH : Int) (imgW imgH : Nat)
    (hW1 : 1 ≤ imgW) (hW2 : imgW ≤ 32768) (hH1 : 1 ≤ imgH) (hH2 : imgH ≤ 32768)
    (htW1 : 0 ≤ tW) (htW2 : tW ≤ 32768) (htH1 : 0 ≤ tH) (htH2 : tH ≤ 32768) :
    ∃ S, (coverScale tW tH imgW imgH).IsVal S ∧ 0 ≤ S ∧ S ≤ 32769 ∧
      (tW : ℚ) / imgW - 1 / 2 ^ 36 ≤ S ∧ (tH : ℚ) / imgH - 1 / 2 ^ 36 ≤ S := by
  have qW1 : (1 : ℚ) ≤ imgW := by exact_mod_cast hW1
  have qH1 : (1 : ℚ) ≤ imgH := by exact_mod_cast hH1
  have qtW1 : (0 : ℚ) ≤ tW := by exact_mod_cast htW1
  have qtW2 : (tW : ℚ) ≤ 32768 := by exact_mod_cast htW2
  have qtH1 : (0 : ℚ) ≤ tH := by exact_mod_cast htH1
  have qtH2 : (tH : ℚ) ≤ 32768 := by exact_mod_cast htH2
  have viW : (ofInt binary64 (imgW : Int)).IsVal (imgW : ℚ) := by
    have := ofInt64_exact (imgW : Int) (by simp only [Int.natAbs_ofNat]; omega)
    rwa [Int.cast_natCast] at this
  have viH : (ofInt binary64 (imgH : Int)).IsVal (imgH : ℚ) := by
    have := ofInt64_exact (imgH : Int) (by simp only [Int.natAbs_ofNat]; omega)
    rwa [Int.cast_natCast] at this
  have vtW : (ofInt binary64 tW).IsVal (tW : ℚ) := ofInt64_exact tW (by omega)
  have vtH : (ofInt binary64 tH).IsVal (tH : ℚ) := ofInt64_exact tH (by omega)
  have hx0 : (0 : ℚ) ≤ (tW : ℚ) / imgW := div_nonneg qtW1 (by linarith)
  have hx1 : (tW : ℚ) / imgW ≤ 32768 := by
    rw [div_le_iff₀ (by linarith)]
    nlinarith
  have hy0 : (0 : ℚ) ≤ (tH : ℚ) / imgH := div_nonneg qtH1 (by linarith)
  have hy1 : (tH : ℚ) / imgH ≤ 32768 := by
    rw [div_le_iff₀ (by linarith)]
    nlinarith
  obtain ⟨X, vX, nX⟩ := divF64 _ _ (tW : ℚ) imgW vtW viW (by linarith)
    (by rw [abs_of_nonneg hx0]; linarith)
  obtain ⟨Y, vY, nY⟩ := divF64 _ _ (tH : ℚ) imgH vtH viH (by linarith)
    (by rw [abs_of_nonneg hy0]; linarith)
  have hXu := nX.upper hx0
  have hYu := nY.upper hy0
  have hXl := nX.lower hx0
  have hYl := nY.lower hy0
  have hXl2 : (tW : ℚ) / imgW - 1 / 2 ^ 36 ≤ X := by
    norm_num at hXl ⊢
    linarith
  have hYl2 : (tH : ℚ) / imgH - 1 / 2 ^ 36 ≤ Y := by
    norm_num at hYl ⊢
    linarith
  have hlt := ltF_iff _ _ Y X vY vX
  unfold coverScale
  split
  next h =>
    have hXY : Y < X := hlt.1 h
    refine ⟨X, vX, nX.2.1 hx0, ?_, hXl2, by linarith⟩
    norm_num at hXu ⊢
    linarith
  next h =>
    have hXY : X ≤ Y := not_lt.1 (fun c => h (hlt.2 c))
    refine ⟨Y, vY, nY.2.1 hy0, ?_, by linarith, hYl2⟩
    norm_num at hYu ⊢
    linarith

theorem tdiv_two_nonpos (z : Int) (hz : z ≤ 1) : Int.tdiv z 2 ≤ 0 ∧ z - 1 ≤ Int.tdiv z 2 * 2 := by
  rcases le_or_lt 0 z with h | h
  · rw [Int.tdiv_eq_ediv h (by decide)]
    omega
  · have e : Int.tdiv z 2 = -((-z) / 2) := by
      calc Int.tdiv z 2 = Int.tdiv (-(-z)) 2 := by rw [neg_neg]
        _ = -(Int.tdiv (-z) 2) := Int.neg_tdiv _ _
        _ = _ := by rw [Int.tdiv_eq_ediv (by omega) (by decide)]
    rw [e]
    omega

/-- For an image and a client area whose sides are at most 32768 the rectangle drawn by
`DrawUI` starts at or before the left and top edges of the client area and misses its
right and bottom edges by at most one pixel. -/
theorem cover_fit_within_one_pixel (rc : RECT) (imgW imgH : Nat)
    (hW1 : 1 ≤ imgW) (hW2 : imgW ≤ 32768) (hH1 : 1 ≤ imgH) (hH2 : imgH ≤ 32768)
    (htW1 : 0 ≤ rc.right - rc.left) (htW2 : rc.right - rc.left ≤ 32768)
    (htH1 : 0 ≤ rc.bottom - rc.top) (htH2 : rc.bottom - rc.top ≤ 32768) :
    ∃ r, DrawUI rc imgW imgH = some r ∧ r.X ≤ 0 ∧ r.Y ≤ 0 ∧
      rc.right - rc.left - 1 ≤ r.X + r.Width ∧
      rc.bottom - rc.top - 1 ≤ r.Y + r.Height := by
  obtain ⟨S, vS, hS0, hS1, lW, lH⟩ := coverScale_lower (rc.right - rc.left)
    (rc.bottom - rc.top) imgW imgH hW1 hW2 hH1 hH2 htW1 htW2 htH1 htH2
  obtain ⟨dW, cW, w0, w1, w2, w3⟩ := scaled_side _ S imgW vS hS0 hS1 hW1 hW2
  obtain ⟨dH, cH, h0, h1, h2, h3⟩ := scaled_side _ S imgH vS hS0 hS1 hH1 hH2
  refine ⟨_, DrawUI_eq rc imgW imgH dW dH (intOp_eq _ (by omega) (by omega))
    (intOp_eq _ (by omega) (by omega)) cW cH (intOp_eq _ (by omega) (by omega))
    (intOp_eq _ (by omega) (by omega)), ?_⟩
  dsimp only
  have qW1 : (1 : ℚ) ≤ imgW := by exact_mod_cast hW1
  have qW2 : (imgW : ℚ) ≤ 32768 := by exact_mod_cast hW2
  have qH1 : (1 : ℚ) ≤ imgH := by exact_mod_cast hH1
  have qH2 : (imgH : ℚ) ≤ 32768 := by exact_mod_cast hH2
  have pW : ((rc.right - rc.left : Int) : ℚ) - 1 / 2 ^ 21 ≤ (imgW : ℚ) * S := by
    have e : (imgW : ℚ) * (((rc.right - rc.left : Int) : ℚ) / imgW)
        = ((rc.right - rc.left : Int) : ℚ) := by
      field_simp
    have := mul_le_mul_of_nonneg_left lW (by linarith : (0 : ℚ) ≤ imgW)
    rw [mul_sub, e] at this
    norm_num at this ⊢
    linarith
  have pH : ((rc.bottom - rc.top : Int) : ℚ) - 1 / 2 ^ 21 ≤ (imgH : ℚ) * S := by
    have e : (imgH : ℚ) * (((rc.bottom - rc.top : Int) : ℚ) / imgH)
        = ((rc.bottom - rc.top : Int) : ℚ) := by
      field_simp
    have := mul_le_mul_of_nonneg_left lH (by linarith : (0 : ℚ) ≤ imgH)
    rw [mul_sub, e] at this
    norm_num at this ⊢
    linarith
  have gW : rc.right - rc.left - 1 ≤ dW := by
    have : ((rc.right - rc.left - 2 : Int) : ℚ) < (dW : ℚ) := by
      push_cast
      push_cast at pW
      norm_num at pW w3 ⊢
      linarith
    have h4 : rc.right - rc.left - 2 < dW := by exact_mod_cast this
    omega
  have gH : rc.bottom - rc.top - 1 ≤ dH := by
    have : ((rc.bottom - rc.top - 2 : Int) : ℚ) < (dH : ℚ) := by
      push_cast
      push_cast at pH
      norm_num at pH h3 ⊢
      linarith
    have h4 : rc.bottom - rc.top - 2 < dH := by exact_mod_cast this
    omega
  have tX := tdiv_two_nonpos (rc.right - rc.left - dW) (by omega)
  have tY := tdiv_two_nonpos (rc.bottom - rc.top - dH) (by omega)
  refine ⟨tX.1, tY.1, ?_, ?_⟩
  · omega
  · omega

/-! ### Degenerate inputs -/

set_option maxRecDepth 100000

/-- Values of the two computations at some ordinary and some degenerate inputs. -/
theorem layout_examples :
    DrawUI ⟨0, 0, 800, 600⟩ 1920 1080 = some ⟨-133, 0, 1066, 600⟩ ∧
    DrawUI ⟨0, 0, 640, 846⟩ 4000 3000 = some ⟨-244, 0, 1128, 845⟩ ∧
    DrawUI ⟨0, 0, 800, 600⟩ 1 3000000 = none ∧
    CalcAspectFit 1920 1080 ⟨0, 0, 800, 600⟩ = some ⟨0, 75, 800, 450⟩ ∧
    CalcAspectFit 500 333 ⟨0, 0, 1500, 1080⟩ = some ⟨0, 40, 1500, 998⟩ ∧
    CalcAspectFit 1920 1080 ⟨0, 0, 800, 0⟩ = some ⟨400, 0, 0, 0⟩ ∧
    CalcAspectFit 0 0 ⟨0, 0, 800, 600⟩ = none := by
  decide

/-- C6 (failing input): for a 1920x1080 image in a 999x561 client area `DrawUI` draws
998x561 at the origin, so the last pixel column of the container is not covered; for a
49x49 image in a 1x1 client area it draws a rectangle of size 0x0. -/
theorem C6_cover_fit_leaves_gap :
    DrawUI ⟨0, 0, 999, 561⟩ 1920 1080 = some ⟨0, 0, 998, 561⟩ ∧
    DrawUI ⟨0, 0, 1, 1⟩ 49 49 = some ⟨0, 0, 0, 0⟩ := by
  decide

theorem DrawUI_example :
    DrawUI ⟨0, 0, 800, 600⟩ 1920 1080 = some ⟨-133, 0, 1066, 600⟩ := by
  decide

/-- C7 (counterexample): for a 1920x1080 image in an 800x600 container `DrawUI` draws
1066x600, and `1066 * 1080` differs from `600 * 1920`. -/
theorem C7_aspect_not_exact :
    ∃ r, DrawUI ⟨0, 0, 800, 600⟩ 1920 1080 = some r ∧
      r.Width * (1080 : Int) ≠ r.Height * (1920 : Int) :=
  ⟨_, DrawUI_example, by decide⟩

/-- C7 (amended): for an image and a container whose sides are between 1 and 32768,
`DrawUI` produces a rectangle whose integer draw size keeps the aspect ratio up to the
truncation of each side: `drawW * imgH - drawH * imgW` lies between `-imgH` and `imgW`. -/
theorem C7_aspect_within_truncation (rc : RECT) (imgW imgH : Nat)
    (hW1 : 1 ≤ imgW) (hW2 : imgW ≤ 32768) (hH1 : 1 ≤ imgH) (hH2 : imgH ≤ 32768)
    (htW1 : 1 ≤ rc.right - rc.left) (htW2 : rc.right - rc.left ≤ 32768)
    (htH1 : 1 ≤ rc.bottom - rc.top) (htH2 : rc.bottom - rc.top ≤ 32768) :
    ∃ r, DrawUI rc imgW imgH = some r ∧
      -(imgH : Int) ≤ r.Width * imgH - r.Height * imgW ∧
      r.Width * imgH - r.Height * imgW ≤ imgW :=
  cover_fit_deviation rc imgW imgH hW1 hW2 hH1 hH2 htW1 htW2 htH1 htH2

/-- C7 (amended) at a concrete input: a 4000x3000 image in a 640x846 container (drawn
1128x845, where the difference reaches `imgW`). -/
theorem C7_aspect_within_truncation_witness :
    ∃ r, DrawUI ⟨0, 0, 640, 846⟩ 4000 3000 = some r ∧
      -((3000 : Nat) : Int) ≤ r.Width * ((3000 : Nat) : Int) - r.Height * ((4000 : Nat) : Int) ∧
      r.Width * ((3000 : Nat) : Int) - r.Height * ((4000 : Nat) : Int) ≤ ((4000 : Nat) : Int) :=
  C7_aspect_within_truncation ⟨0, 0, 640, 846⟩ 4000 3000 (by decide) (by decide) (by decide)
    (by decide) (by decide) (by decide) (by decide) (by decide)

/-- C8 (counterexample): for a 1920x1080 image and a container with
`right = bottom = 16777219` the rectangle returned by `CalcAspectFit` has width 16777220
and so reaches beyond the right edge of the container. -/
theorem C8_wide_container_exceeded :
    ∃ r, CalcAspectFit 1920 1080 ⟨0, 0, 16777219, 16777219⟩ = some r ∧
      ¬ (r.X + r.Width ≤ 16777219) :=
  ⟨⟨0, 3670017, 16777220, 9437186⟩, by decide, by decide⟩

/-- C8 (amended): for an image whose sides are between 1 and `2 ^ 20` and a container
rectangle with `left = top = 0` and `right = W`, `bottom = H` between 1 and `2 ^ 20`,
`CalcAspectFit` returns a rectangle that lies inside the container and spans it from
edge to edge on one axis: either `x = 0` and the width is `W`, or `y = 0` and the height
is `H`. -/
theorem C8_contain_fit_inside_container (w h : Nat) (rc : RECT)
    (hw1 : 1 ≤ w) (hw2 : w ≤ 2 ^ 20) (hh1 : 1 ≤ h) (hh2 : h ≤ 2 ^ 20)
    (hl : rc.left = 0) (ht : rc.top = 0)
    (hW1 : 1 ≤ rc.right) (hW2 : rc.right ≤ 2 ^ 20)
    (hH1 : 1 ≤ rc.bottom) (hH2 : rc.bottom ≤ 2 ^ 20) :
    ∃ r, CalcAspectFit w h rc = some r ∧
      rc.left ≤ r.X ∧ rc.top ≤ r.Y ∧
      r.X + r.Width ≤ rc.right ∧ r.Y + r.Height ≤ rc.bottom ∧
      ((r.X = 0 ∧ r.Width = rc.right) ∨ (r.Y = 0 ∧ r.Height = rc.bottom)) := by
  rw [hl, ht]
  exact contain_fit_inside w h rc hw1 hw2 hh1 hh2 hW1 hW2 hH1 hH2

/-- C8 (amended) at a concrete input: a 1920x1080 image in an 800x600 container. -/
theorem C8_contain_fit_inside_container_witness :
    ∃ r, CalcAspectFit 1920 1080 ⟨0, 0, 800, 600⟩ = some r ∧
      (0 : Int) ≤ r.X ∧ (0 : Int) ≤ r.Y ∧
      r.X + r.Width ≤ 800 ∧ r.Y + r.Height ≤ 600 ∧
      ((r.X = 0 ∧ r.Width = 800) ∨ (r.Y = 0 ∧ r.Height = 600)) :=
  C8_contain_fit_inside_container 1920 1080 ⟨0, 0, 800, 600⟩ (by decide) (by decide)
    (by decide) (by decide) rfl rfl (by decide) (by decide) (by decide) (by decide)

mutual
theorem PopulateDropdownMenu_eq_foldl :
    ∀ (g : WallpaperGroup) (ptr : GroupPtr) (st : MenuState),
      PopulateDropdownMenu g ptr st = (childless g ptr).foldl assignNext st
  | .mk _ _ subs, ptr, st => by
    rw [PopulateDropdownMenu, childless]
    exact PopulateDropdownMenuLoop_eq_foldl subs ptr 0 st
theorem PopulateDropdownMenuLoop_eq_foldl :
    ∀ (subs : List WallpaperGroup) (ptr : GroupPtr) (i : Nat) (st : MenuState),
      PopulateDropdownMenuLoop subs ptr i st = (childlessFrom subs ptr i).foldl assignNext st
  | [], ptr, i, st => by
    rw [PopulateDropdownMenuLoop, childlessFrom]
    rfl
  | sub :: rest, ptr, i, st => by
    rw [PopulateDropdownMenuLoop, childlessFrom, List.foldl_append,
      PopulateDropdownMenuLoop_eq_foldl rest ptr (i + 1)]
    cases hs : sub.subgroups.isEmpty with
    | true => rfl
    | false =>
      simp only [Bool.not_false, if_true, Bool.false_eq_true, if_false]
      rw [PopulateDropdownMenu_eq_foldl sub (ptr ++ [i]) st]
end

theorem foldl_assignNext_map (ps : List GroupPtr) :
    ∀ (m : Nat → Option GroupPtr) (n : Nat), n + ps.length ≤ UINT_MOD →
      ∀ id, (ps.foldl assignNext ⟨m, n⟩).menuIdToGroup id
        = if n ≤ id ∧ id < n + ps.length then ps[id - n]? else m id := by
  induction ps with
  | nil =>
    intro m n _ id
    have h0 : ¬ (n ≤ id ∧ id < n + ([] : List GroupPtr).length) := by
      rw [List.length_nil]
      omega
    rw [List.foldl_nil, if_neg h0]
  | cons p rest ih =>
    intro m n hn id
    rw [List.length_cons] at hn
    rw [List.foldl_cons]
    have hstep : assignNext ⟨m, n⟩ p = ⟨mapSet m n p, (n + 1) % UINT_MOD⟩ := rfl
    rw [hstep]
    cases rest with
    | nil =>
      simp only [List.foldl_nil, List.length_cons, List.length_nil, mapSet]
      by_cases h : id = n
      · subst h
        simp
      · have : ¬ (n ≤ id ∧ id < n + (0 + 1)) := by omega
        simp [h, this]
    | cons q rest2 =>
      rw [List.length_cons] at hn
      have hlt : n + 1 < UINT_MOD := by omega
      rw [Nat.mod_eq_of_lt hlt, ih (mapSet m n p) (n + 1) (by rw [List.length_cons]; omega)]
      simp only [List.length_cons, mapSet]
      by_cases h : id = n
      · subst h
        have h1 : ¬ (id + 1 ≤ id ∧ id < id + 1 + (rest2.length + 1)) := by omega
        have h2 : id ≤ id ∧ id < id + (rest2.length + 1 + 1) := by omega
        simp [h1, h2]
      · by_cases h3 : n + 1 ≤ id ∧ id < n + 1 + (rest2.length + 1)
        · have h4 : n ≤ id ∧ id < n + (rest2.length + 1 + 1) := by omega
          have h5 : id - n = (id - (n + 1)) + 1 := by omega
          rw [if_pos h3, if_pos h4, h5, List.getElem?_cons_succ]
        · have h4 : ¬ (n ≤ id ∧ id < n + (rest2.length + 1 + 1)) := by omega
          rw [if_neg h3, if_neg h4, if_neg h]

theorem nodeAt_of_childless (sub d : WallpaperGroup) (q : GroupPtr)
    (hs : sub.subgroups = []) (h : nodeAt sub q = some d) : q = [] ∧ d = sub := by
  cases q with
  | nil =>
    rw [nodeAt] at h
    exact ⟨rfl, (Option.some.inj h).symm⟩
  | cons k q2 =>
    rw [nodeAt, hs] at h
    simp at h

theorem mem_first_part (p ptr : GroupPtr) (i : Nat) (sub : WallpaperGroup)
    (ih : ∀ ptr2 : GroupPtr, p ∈ childless sub ptr2 ↔
      ∃ q, q ≠ [] ∧ p = ptr2 ++ q ∧ ∃ d, nodeAt sub q = some d ∧ d.subgroups = []) :
    p ∈ (if sub.subgroups.isEmpty then [ptr ++ [i]] else childless sub (ptr ++ [i])) ↔
      ∃ q d, p = ptr ++ i :: q ∧ nodeAt sub q = some d ∧ d.subgroups = [] := by
  cases hs : sub.subgroups.isEmpty with
  | true =>
    have hs2 : sub.subgroups = [] := List.isEmpty_iff.1 hs
    rw [if_pos rfl, List.mem_singleton]
    constructor
    · intro hp
      exact ⟨[], sub, hp, rfl, hs2⟩
    · rintro ⟨q, d, hp, hn, _⟩
      rw [(nodeAt_of_childless sub d q hs2 hn).1] at hp
      exact hp
  | false =>
    have hs2 : sub.subgroups ≠ [] := by
      intro h
      rw [List.isEmpty_iff.2 h] at hs
      exact Bool.noConfusion hs
    rw [if_neg (by simp), ih (ptr ++ [i])]
    constructor
    · rintro ⟨q, _, hp, d, hn, hd⟩
      refine ⟨q, d, ?_, hn, hd⟩
      rw [hp, List.append_assoc]
      rfl
    · rintro ⟨q, d, hp, hn, hd⟩
      refine ⟨q, ?_, ?_, d, hn, hd⟩
      · rintro rfl
        rw [nodeAt] at hn
        rw [← Option.some.inj hn] at hd
        exact hs2 hd
      · rw [hp, List.append_assoc]
        rfl

mutual
theorem mem_childless (p : GroupPtr) :
    ∀ (g : WallpaperGroup) (ptr : GroupPtr),
      p ∈ childless g ptr ↔
        ∃ q, q ≠ [] ∧ p = ptr ++ q ∧ ∃ d, nodeAt g q = some d ∧ d.subgroups = []
  | .mk n imgs subs, ptr => by
    rw [childless, mem_childlessFrom p subs ptr 0]
    constructor
    · rintro ⟨j, c, q, d, hj, hp, hn, hd⟩
      refine ⟨j :: q, List.cons_ne_nil _ _, ?_, d, ?_, hd⟩
      · rw [hp, Nat.zero_add]
      · rw [nodeAt]
        show (match subs[j]? with
          | none => none
          | some c => nodeAt c q) = some d
        rw [hj]
        exact hn
    · rintro ⟨q, hne, hp, d, hn, hd⟩
      cases q with
      | nil => exact absurd rfl hne
      | cons j q2 =>
        rw [nodeAt] at hn
        change (match subs[j]? with
          | none => none
          | some c => nodeAt c q2) = some d at hn
        cases hj : subs[j]? with
        | none =>
          rw [hj] at hn
          exact Option.noConfusion hn
        | some c =>
          rw [hj] at hn
          exact ⟨j, c, q2, d, hj, by rw [hp, Nat.zero_add], hn, hd⟩
theorem mem_childlessFrom (p : GroupPtr) :
    ∀ (subs : List WallpaperGroup) (ptr : GroupPtr) (i : Nat),
      p ∈ childlessFrom subs ptr i ↔
        ∃ j c q d, subs[j]? = some c ∧ p = ptr ++ (i + j) :: q ∧
          nodeAt c q = some d ∧ d.subgroups = []
  | [], ptr, i => by
    rw [childlessFrom]
    constructor
    · intro h
      exact absurd h (List.not_mem_nil _)
    · rintro ⟨j, c, q, d, hj, _⟩
      simp at hj
  | sub :: rest, ptr, i => by
    rw [childlessFrom, List.mem_append, mem_childlessFrom p rest ptr (i + 1),
      mem_first_part p ptr i sub (mem_childless p sub)]
    constructor
    · rintro (⟨q, d, hp, hn, hd⟩ | ⟨j, c, q, d, hj, hp, hn, hd⟩)
      · exact ⟨0, sub, q, d, List.getElem?_cons_zero, hp, hn, hd⟩
      · refine ⟨j + 1, c, q, d, ?_, ?_, hn, hd⟩
        · rw [List.getElem?_cons_succ]
          exact hj
        · rw [hp]
          have : i + 1 + j = i + (j + 1) := by omega
          rw [this]
    · rintro ⟨j, c, q, d, hj, hp, hn, hd⟩
      cases j with
      | zero =>
        left
        have hc : sub = c := by simpa using hj
        subst hc
        exact ⟨q, d, hp, hn, hd⟩
      | succ j =>
        right
        rw [List.getElem?_cons_succ] at hj
        refine ⟨j, c, q, d, hj, ?_, hn, hd⟩
        rw [hp]
        have : i + 1 + j = i + (j + 1) := by omega
        rw [this]
end

mutual
theorem nodup_childless :
    ∀ (g : WallpaperGroup) (ptr : GroupPtr), (childless g ptr).Nodup
  | .mk n imgs subs, ptr => by
    rw [childless]
    exact nodup_childlessFrom subs ptr 0
theorem nodup_childlessFrom :
    ∀ (subs : List WallpaperGroup) (ptr : GroupPtr) (i : Nat),
      (childlessFrom subs ptr i).Nodup
  | [], ptr, i => by
    rw [childlessFrom]
    exact List.nodup_nil
  | sub :: rest, ptr, i => by
    rw [childlessFrom]
    refine List.nodup_append.2 ⟨?_, nodup_childlessFrom rest ptr (i + 1), ?_⟩
    · cases hs : sub.subgroups.isEmpty with
      | true =>
        rw [if_pos rfl]
        exact List.nodup_singleton _
      | false =>
        rw [if_neg (by simp)]
        exact nodup_childless sub (ptr ++ [i])
    · intro p h1 h2
      obtain ⟨q, d, hp, _, _⟩ :=
        (mem_first_part p ptr i sub (mem_childless p sub)).1 h1
      obtain ⟨j, c, q2, d2, _, hp2, _, _⟩ := (mem_childlessFrom p rest ptr (i + 1)).1 h2
      rw [hp] at hp2
      have h3 := List.append_cancel_left hp2
      have h4 : i = i + 1 + j := (List.cons.inj h3).1
      omega
end

theorem mem_childless_root (root : WallpaperGroup) (p : GroupPtr) :
    p ∈ childless root [] ↔ IsChildlessDescendant root p := by
  rw [mem_childless p root []]
  unfold IsChildlessDescendant
  constructor
  · rintro ⟨q, hne, hp, h⟩
    rw [List.nil_append] at hp
    subst hp
    exact ⟨hne, h⟩
  · rintro ⟨hne, h⟩
    exact ⟨p, hne, (List.nil_append p).symm, h⟩

theorem rebuildMenu_map (root : WallpaperGroup)
    (hk : 1000 + (childless root []).length ≤ UINT_MOD) (id : Nat) :
    (rebuildMenu root).menuIdToGroup id
      = if 1000 ≤ id ∧ id < 1000 + (childless root []).length then
          (childless root [])[id - 1000]?
        else none := by
  unfold rebuildMenu
  rw [PopulateDropdownMenu_eq_foldl]
  exact foldl_assignNext_map (childless root []) (fun _ => none) 1000 hk id

/-- C10: let `k` be the number of proper descendants of the root without child groups
(the length of the duplicate-free list `childless root []`, whose members are exactly
the pointers to those descendants), and let the identifiers `1000, ..., 1000 + k - 1`
all fit a `UINT`.  After the menu is rebuilt from the root, the keys of `menuIdToGroup`
are exactly `1000, ..., 1000 + k - 1`, every childless proper descendant is the value of
exactly one identifier, and every value is a childless proper descendant (so neither
the root nor a group with child groups is a value). -/
theorem C10_menu_ids_consecutive (root : WallpaperGroup)
    (hk : 1000 + (childless root []).length ≤ UINT_MOD) :
    (childless root []).Nodup ∧
    (∀ p, p ∈ childless root [] ↔ IsChildlessDescendant root p) ∧
    (∀ id, ((rebuildMenu root).menuIdToGroup id).isSome ↔
      1000 ≤ id ∧ id < 1000 + (childless root []).length) ∧
    (∀ p, IsChildlessDescendant root p →
      ∃! id, (rebuildMenu root).menuIdToGroup id = some p) ∧
    (∀ id p, (rebuildMenu root).menuIdToGroup id = some p →
      IsChildlessDescendant root p) := by
  have hnd := nodup_childless root []
  have hval : ∀ id p, (rebuildMenu root).menuIdToGroup id = some p →
      (1000 ≤ id ∧ id < 1000 + (childless root []).length) ∧
        (childless root [])[id - 1000]? = some p := by
    intro id p h
    rw [rebuildMenu_map root hk id] at h
    by_cases hr : 1000 ≤ id ∧ id < 1000 + (childless root []).length
    · rw [if_pos hr] at h
      exact ⟨hr, h⟩
    · rw [if_neg hr] at h
      exact Option.noConfusion h
  refine ⟨hnd, mem_childless_root root, ?_, ?_, ?_⟩
  · intro id
    rw [rebuildMenu_map root hk id]
    by_cases hr : 1000 ≤ id ∧ id < 1000 + (childless root []).length
    · rw [if_pos hr]
      have hlt : id - 1000 < (childless root []).length := by omega
      rw [List.getElem?_eq_getElem hlt]
      exact ⟨fun _ => hr, fun _ => rfl⟩
    · rw [if_neg hr]
      exact ⟨fun h => Bool.noConfusion h, fun h => absurd h hr⟩
  · intro p hp
    obtain ⟨n, hn⟩ := List.mem_iff_getElem?.1 ((mem_childless_root root p).2 hp)
    obtain ⟨hlt, _⟩ := List.getElem?_eq_some_iff.1 hn
    refine ⟨1000 + n, ?_, ?_⟩
    · show (rebuildMenu root).menuIdToGroup (1000 + n) = some p
      rw [rebuildMenu_map root hk, if_pos (by omega)]
      have : 1000 + n - 1000 = n := by omega
      rw [this]
      exact hn
    · intro id hid
      obtain ⟨hr, hget⟩ := hval id p hid
      have hlt2 : id - 1000 < (childless root []).length := by omega
      have := List.getElem?_inj hlt2 hnd (hget.trans hn.symm)
      omega
  · intro id p h
    obtain ⟨_, hget⟩ := hval id p h
    exact (mem_childless_root root p).1 (List.mem_iff_getElem?.2 ⟨_, hget⟩)

/-- C10 on the tree `nestedRoot`: the childless proper descendants are `A`, `B/X`, `B/Y`
and `C`; the keys are 1000 to 1003; `B/Y`, a leaf without images, has an identifier. -/
theorem C10_menu_ids_consecutive_witness :
    childless nestedRoot [] = [[0], [1, 0], [1, 1], [2]] ∧
    (∀ id, ((rebuildMenu nestedRoot).menuIdToGroup id).isSome ↔
      1000 ≤ id ∧ id < 1000 + 4) ∧
    (∃! id, (rebuildMenu nestedRoot).menuIdToGroup id = some [1, 1]) :=
  ⟨by decide,
   (C10_menu_ids_consecutive nestedRoot (by decide)).2.2.1,
   (C10_menu_ids_consecutive nestedRoot (by decide)).2.2.2.1 [1, 1]
     (((C10_menu_ids_consecutive nestedRoot (by decide)).2.1 [1, 1]).1 (by decide))⟩

end Wallpaper
